import Mathlib

/-!
Verification development for the `bitrix24` API client wrapper
(`src/bitrix24/bitrix24.py`).

The Python module is shallowly embedded: JSON/Python values are modelled by
`JValue`, Python `dict`s by insertion-ordered association lists
(`List (String × JValue)`) with first-match lookup and
replace-in-place-or-append update, and the HTTP transport / JSON codec
(external collaborators of the library) by oracles producing decoded
responses.  Exceptions raised by the Python code are modelled with
`Except String`.
-/

/-- Model of a decoded JSON / Python value tree. -/
inductive JValue where
  | null : JValue
  | b : Bool → JValue
  | n : Int → JValue
  | s : String → JValue
  | arr : List JValue → JValue
  | obj : List (String × JValue) → JValue

/-- Entries of a Python `dict` with string keys: insertion-ordered
association list.  Real Python dicts never hold duplicate keys; theorems
assume `Nodup` keys where the distinction matters. -/
abbrev Entries := List (String × JValue)

/-- The keys of a dict, in insertion order (models `d.keys()`). -/
def keysOf (es : Entries) : List String := es.map Prod.fst

/-- Models Python dict subscript `d[k]`: the first entry with key `k`. -/
def pyGet (es : Entries) (k : String) : Option JValue :=
  match es with
  | [] => none
  | (k', v) :: rest => if k' = k then some v else pyGet rest k

/-- Models `k in d`. -/
def hasKey (es : Entries) (k : String) : Bool :=
  match es with
  | [] => false
  | (k', _) :: rest => k' = k || hasKey rest k

/-- Models Python dict assignment `d[k] = v`: replace the value of the
first entry with key `k`, keeping its position, else append a new entry. -/
def pySet (es : Entries) (k : String) (v : JValue) : Entries :=
  match es with
  | [] => [(k, v)]
  | (k', v') :: rest => if k' = k then (k, v) :: rest else (k', v') :: pySet rest k v

/-- Models `x.update(y)`: fold `pySet` over the entries of `y` in order. -/
def pyUpdate (x y : Entries) : Entries :=
  y.foldl (fun acc p => pySet acc p.1 p.2) x

/-- `merge_two_dicts` (bitrix24.py line 198): `z = x.copy(); z.update(y)`. -/
def merge_two_dicts (x y : Entries) : Entries := pyUpdate x y

/-- Python truthiness for the modelled values (`if self.auth_token`). -/
def pyTruthy : JValue → Bool
  | .null => false
  | .b v => v
  | .n v => v != 0
  | .s v => v != ""
  | .arr l => !l.isEmpty
  | .obj l => !l.isEmpty

def JValue.isStr : JValue → Bool
  | .s _ => true
  | _ => false

def JValue.asStr : JValue → String
  | .s v => v
  | _ => ""

def JValue.isObj : JValue → Bool
  | .obj _ => true
  | _ => false

def JValue.isArr : JValue → Bool
  | .arr _ => true
  | _ => false

/-- Models Python `v == t` for a string literal `t`: true exactly when `v`
is that string (a decoded JSON value equals a `str` only if it is one). -/
def isStrEq (v : JValue) (t : String) : Bool :=
  match v with
  | .s u => u = t
  | _ => false

/-- Models Python `len` on values that have a length. -/
def jLen : JValue → Option Nat
  | .obj es => some es.length
  | .arr l => some l.length
  | .s v => some v.length
  | _ => none

/-! ### Basic dict lemmas -/

theorem hasKey_iff_mem (es : Entries) (k : String) :
    hasKey es k = true ↔ k ∈ keysOf es := by
  induction es with
  | nil => simp [hasKey, keysOf]
  | cons p rest ih =>
    obtain ⟨k', v⟩ := p
    by_cases h : k' = k <;> simp [hasKey, keysOf, h, ih] <;> tauto

theorem pyGet_eq_none_iff (es : Entries) (k : String) :
    pyGet es k = none ↔ k ∉ keysOf es := by
  induction es with
  | nil => simp [pyGet, keysOf]
  | cons p rest ih =>
    obtain ⟨k', v⟩ := p
    by_cases h : k' = k <;> simp [pyGet, keysOf, h, ih] <;> tauto

theorem pyGet_isSome_of_mem {es : Entries} {k : String} (h : k ∈ keysOf es) :
    ∃ v, pyGet es k = some v := by
  cases hv : pyGet es k with
  | some v => exact ⟨v, rfl⟩
  | none => exact absurd h ((pyGet_eq_none_iff es k).1 hv)

theorem mem_of_pyGet_some {es : Entries} {k : String} {v : JValue}
    (h : pyGet es k = some v) : k ∈ keysOf es := by
  by_contra hm
  rw [← pyGet_eq_none_iff es k] at hm
  rw [h] at hm
  cases hm

theorem hasKey_of_pyGet {es : Entries} {k : String} {v : JValue}
    (h : pyGet es k = some v) : hasKey es k = true :=
  (hasKey_iff_mem es k).2 (mem_of_pyGet_some h)

theorem pyGet_pySet_ne (es : Entries) {k k' : String} (v : JValue)
    (h : k' ≠ k) : pyGet (pySet es k v) k' = pyGet es k' := by
  induction es with
  | nil => simp [pySet, pyGet, Ne.symm h]
  | cons p rest ih =>
    obtain ⟨k₀, v₀⟩ := p
    by_cases h₀ : k₀ = k
    · subst h₀
      simp [pySet, pyGet, Ne.symm h, fun hc : k₀ = k' => h hc.symm]
    · simp only [pySet, if_neg h₀, pyGet]
      by_cases h₁ : k₀ = k' <;> simp [h₁, ih]

theorem pyGet_pySet_self (es : Entries) (k : String) (v : JValue) :
    pyGet (pySet es k v) k = some v := by
  induction es with
  | nil => simp [pySet, pyGet]
  | cons p rest ih =>
    obtain ⟨k₀, v₀⟩ := p
    by_cases h₀ : k₀ = k
    · simp [pySet, h₀, pyGet]
    · simp [pySet, h₀, pyGet, ih]

theorem keysOf_pySet_of_not_mem (es : Entries) {k : String} (v : JValue)
    (h : k ∉ keysOf es) : keysOf (pySet es k v) = keysOf es ++ [k] := by
  induction es with
  | nil => simp [pySet, keysOf]
  | cons p rest ih =>
    obtain ⟨k₀, v₀⟩ := p
    simp only [keysOf, List.map_cons, List.mem_cons] at h
    push_neg at h
    have h₀ : ¬ k₀ = k := fun hc => h.1 hc.symm
    simp only [pySet, if_neg h₀, keysOf, List.map_cons]
    rw [show List.map Prod.fst (pySet rest k v) = keysOf (pySet rest k v) from rfl,
      ih h.2]
    rfl

theorem keysOf_pySet_of_mem (es : Entries) {k : String} (v : JValue)
    (h : k ∈ keysOf es) : keysOf (pySet es k v) = keysOf es := by
  induction es with
  | nil => simp [keysOf] at h
  | cons p rest ih =>
    obtain ⟨k₀, v₀⟩ := p
    by_cases h₀ : k₀ = k
    · simp [pySet, h₀, keysOf]
    · simp only [keysOf, List.map_cons, List.mem_cons] at h
      rcases h with h | h
      · exact absurd h.symm h₀
      · simp only [pySet, if_neg h₀, keysOf, List.map_cons]
        rw [show List.map Prod.fst (pySet rest k v) = keysOf (pySet rest k v) from rfl,
          ih h]
        rfl

theorem nodup_keys_pySet (es : Entries) (k : String) (v : JValue)
    (h : (keysOf es).Nodup) : (keysOf (pySet es k v)).Nodup := by
  by_cases hm : k ∈ keysOf es
  · rwa [keysOf_pySet_of_mem es v hm]
  · rw [keysOf_pySet_of_not_mem es v hm]
    simpa using List.Nodup.append h (by simp) (by simpa using hm)

/-- First-match lookup after `update`: a key present in `y` gets `y`'s
value (for `y` with no duplicate keys), otherwise `x`'s value survives. -/
theorem pyGet_pyUpdate (x y : Entries) (hy : (keysOf y).Nodup) (k : String) :
    pyGet (pyUpdate x y) k = (pyGet y k).orElse (fun _ => pyGet x k) := by
  induction y generalizing x with
  | nil => simp [pyUpdate, pyGet]
  | cons p rest ih =>
    obtain ⟨k₀, v₀⟩ := p
    simp only [keysOf, List.map_cons, List.nodup_cons] at hy
    have hstep : pyUpdate x ((k₀, v₀) :: rest) = pyUpdate (pySet x k₀ v₀) rest := by
      simp [pyUpdate]
    rw [hstep, ih (pySet x k₀ v₀) hy.2]
    by_cases h : k₀ = k
    · subst h
      have : pyGet rest k₀ = none := by
        rw [pyGet_eq_none_iff]
        simpa [keysOf] using hy.1
      simp [pyGet, this, pyGet_pySet_self]
    · simp only [pyGet, if_neg h]
      cases hr : pyGet rest k with
      | some v => simp
      | none => simp [pyGet_pySet_ne x v₀ (fun hc => h hc.symm)]

theorem nodup_keys_pyUpdate (x y : Entries) (hx : (keysOf x).Nodup) :
    (keysOf (pyUpdate x y)).Nodup := by
  induction y generalizing x with
  | nil => simpa [pyUpdate]
  | cons p rest ih =>
    have hstep : pyUpdate x (p :: rest) = pyUpdate (pySet x p.1 p.2) rest := by
      simp [pyUpdate]
    rw [hstep]
    exact ih _ (nodup_keys_pySet x p.1 p.2 hx)

/-! ### Python's `sorted` on string keys

Python sorts strings lexicographically by code point.  We model this with a
boolean comparison on the code-point lists and Mathlib's insertion sort. -/

def lexLe : List Nat → List Nat → Bool
  | [], _ => true
  | _ :: _, [] => false
  | a :: as, b :: bs => if a < b then true else if b < a then false else lexLe as bs

/-- Code-point comparison of strings, as Python's `<=` on `str`. -/
def strLe (a b : String) : Bool :=
  lexLe (a.data.map Char.toNat) (b.data.map Char.toNat)

def StrLeR : String → String → Prop := fun a b => strLe a b = true

instance : DecidableRel StrLeR := fun a b =>
  inferInstanceAs (Decidable (strLe a b = true))

theorem lexLe_total (a b : List Nat) : lexLe a b = true ∨ lexLe b a = true := by
  induction a generalizing b with
  | nil => left; rfl
  | cons x xs ih =>
    cases b with
    | nil => right; rfl
    | cons y ys =>
      rcases Nat.lt_trichotomy x y with h | h | h
      · left; simp [lexLe, h]
      · subst h
        rcases ih ys with h' | h' <;> [left; right] <;>
          simp [lexLe, h']
      · right; simp [lexLe, h, Nat.lt_asymm h]

theorem lexLe_trans {a b c : List Nat} (h₁ : lexLe a b = true)
    (h₂ : lexLe b c = true) : lexLe a c = true := by
  induction a generalizing b c with
  | nil => rfl
  | cons x xs ih =>
    cases b with
    | nil => simp [lexLe] at h₁
    | cons y ys =>
      cases c with
      | nil => simp [lexLe] at h₂
      | cons z zs =>
        simp only [lexLe] at h₁ h₂ ⊢
        rcases Nat.lt_trichotomy x y with hxy | hxy | hxy
        · rcases Nat.lt_trichotomy y z with hyz | hyz | hyz
          · simp [Nat.lt_trans hxy hyz]
          · subst hyz; simp [hxy]
          · simp [hyz, Nat.lt_asymm hyz] at h₂
        · subst hxy
          rcases Nat.lt_trichotomy x z with hxz | hxz | hxz
          · simp [hxz]
          · subst hxz
            simp only [Nat.lt_irrefl, if_false] at h₁ h₂ ⊢
            exact ih h₁ h₂
          · simp [hxz, Nat.lt_asymm hxz] at h₂
        · simp [hxy, Nat.lt_asymm hxy] at h₁

theorem lexLe_antisymm {a b : List Nat} (h₁ : lexLe a b = true)
    (h₂ : lexLe b a = true) : a = b := by
  induction a generalizing b with
  | nil =>
    cases b with
    | nil => rfl
    | cons y ys => simp [lexLe] at h₂
  | cons x xs ih =>
    cases b with
    | nil => simp [lexLe] at h₁
    | cons y ys =>
      simp only [lexLe] at h₁ h₂
      rcases Nat.lt_trichotomy x y with hxy | hxy | hxy
      · simp [hxy, Nat.lt_asymm hxy] at h₂
      · subst hxy
        simp only [Nat.lt_irrefl, if_false] at h₁ h₂
        rw [ih h₁ h₂]
      · simp [hxy, Nat.lt_asymm hxy] at h₁

theorem charToNat_injective : Function.Injective Char.toNat := fun a b h =>
  Char.eq_of_val_eq (UInt32.eq_of_toBitVec_eq (BitVec.eq_of_toNat_eq h))

theorem strLe_antisymm {a b : String} (h₁ : StrLeR a b) (h₂ : StrLeR b a) :
    a = b := by
  have h := lexLe_antisymm h₁ h₂
  have hdata : a.data = b.data :=
    List.map_injective_iff.mpr charToNat_injective h
  cases a; cases b
  exact congrArg String.mk hdata

instance : IsTotal String StrLeR := ⟨fun a b => lexLe_total _ _⟩
instance : IsTrans String StrLeR := ⟨fun _ _ _ => lexLe_trans⟩
instance : IsAntisymm String StrLeR := ⟨fun _ _ => strLe_antisymm⟩

/-- Models Python's `sorted` on a list of string keys. -/
def sortKeys (l : List String) : List String := l.insertionSort StrLeR

theorem sortKeys_perm (l : List String) : List.Perm (sortKeys l) l :=
  List.perm_insertionSort StrLeR l

theorem sortKeys_sorted (l : List String) : List.Sorted StrLeR (sortKeys l) :=
  List.sorted_insertionSort StrLeR l

theorem sortKeys_length (l : List String) : (sortKeys l).length = l.length :=
  (sortKeys_perm l).length_eq

theorem mem_sortKeys {l : List String} {k : String} :
    k ∈ sortKeys l ↔ k ∈ l := (sortKeys_perm l).mem_iff

theorem sortKeys_nodup {l : List String} (h : l.Nodup) : (sortKeys l).Nodup :=
  (sortKeys_perm l).nodup_iff.mpr h

/-- Lists with the same elements, no duplicates, sort identically -- the
determinism behind Python's `sorted(d.keys())`. -/
theorem sortKeys_eq_of_same_mem {l₁ l₂ : List String} (h₁ : l₁.Nodup)
    (h₂ : l₂.Nodup) (h : ∀ k, k ∈ l₁ ↔ k ∈ l₂) : sortKeys l₁ = sortKeys l₂ := by
  have hp : List.Perm l₁ l₂ := (List.perm_ext_iff_of_nodup h₁ h₂).2 h
  exact List.eq_of_perm_of_sorted
    ((sortKeys_perm l₁).trans (hp.trans (sortKeys_perm l₂).symm))
    (sortKeys_sorted l₁) (sortKeys_sorted l₂)

/-! ### Form encoding

`urlencode` comes from the external `multidimensional_urlencode` package,
which is not part of this repository. -/

/-- Python `str()` of the scalar values appearing as encoded parameters. -/
def pyStr : JValue → String
  | .s v => v
  | .n v => toString v
  | .b true => "True"
  | .b false => "False"
  | .null => "None"
  | .arr _ => ""
  | .obj _ => ""

/-- Percent-encoding of one character (ASCII-level model). -/
def quoteChar (c : Char) : String :=
  if c.isAlphanum || c = '-' || c = '.' || c = '_' || c = '~' then
    String.singleton c
  else
    let hexDigit : Nat → Char := fun n => if n < 10 then Char.ofNat (48 + n) else Char.ofNat (55 + n)
    "%" ++ String.singleton (hexDigit (c.toNat / 16 % 16)) ++ String.singleton (hexDigit (c.toNat % 16))

/-- Percent-encoding of a string. -/
def quote (t : String) : String :=
  t.data.foldl (fun acc c => acc ++ quoteChar c) ""

mutual

/-- Modelled from the spec: the external form-encoding collaborator
("deterministic nested-key encoding (arrays and nested mappings flattened
into bracketed key paths)").  Flattens a value into key-path/scalar pairs. -/
def flat : JValue → List (List String × String)
  | .obj es => flatE es
  | .arr xs => flatA 0 xs
  | v => [([], pyStr v)]

def flatE : List (String × JValue) → List (List String × String)
  | [] => []
  | (k, v) :: rest => ((flat v).map fun ps => (k :: ps.1, ps.2)) ++ flatE rest

def flatA : Nat → List JValue → List (List String × String)
  | _, [] => []
  | i, v :: rest => ((flat v).map fun ps => (toString i :: ps.1, ps.2)) ++ flatA (i + 1) rest

end

/-- Renders one flattened key path: first component bare, rest bracketed. -/
def renderPath : List String → String
  | [] => ""
  | k :: rest => quote k ++ String.join (rest.map fun p => "[" ++ quote p ++ "]")

/-- Modelled from the spec: the external `multidimensional_urlencode`
collaborator, a deterministic nested-key form encoding. -/
def urlencode (v : JValue) : String :=
  String.intercalate "&" ((flat v).map fun ps => renderPath ps.1 ++ "=" ++ quote ps.2)

/-! ### `prepare_batch` (bitrix24.py lines 130-153)

Python mutates its `params` argument (`params[call_id].pop(0)`), so the
model returns both the result (`Except` for the raised exceptions) and the
post-state of `params`. -/

/-- The `temp` accumulation: `for i in params[call_id]: temp += urlencode(i) + '&'`. -/
def encElems (elems : List JValue) : String :=
  elems.foldl (fun acc i => acc ++ urlencode i ++ "&") ""

/-- One pass of `prepare_batch`'s loop over the sorted call ids, threading
the mutated `params` state and the `batched_params` accumulator. -/
def prepGo : List String → Entries → Entries → (Except String Entries) × Entries
  | [], ps, bp => (.ok bp, ps)
  | k :: rest, ps, bp =>
    match pyGet ps k with
    | some (.arr (m :: tail)) =>
      -- `method = params[call_id].pop(0)` mutates the stored list
      let ps' := pySet ps k (.arr tail)
      match m with
      | .s ms =>
        if ms = "batch" then (.error "Batch call cannot contain batch methods", ps')
        else prepGo rest ps' (pySet bp k (.s (ms ++ "?" ++ encElems tail)))
      | _ => (.error "TypeError: can only concatenate str", ps')
    | some (.arr []) => (.error "IndexError: pop from empty list", ps)
    | some _ => (.error "Invalid 'cmd' method description", ps)
    | none => (.error "KeyError", ps)

/-- `Bitrix24.prepare_batch`.  The second component is the post-state of
the caller's `params` argument (mutated in place by the Python code). -/
def prepare_batch (params : JValue) : (Except String Entries) × JValue :=
  match params with
  | .obj ps =>
    let r := prepGo (sortKeys (keysOf ps)) ps []
    (r.1, .obj r.2)
  | _ => (.error "Invalid 'cmd' structure", params)

/-! ### `encode_cmd` (bitrix24.py lines 155-166) -/

/-- `Bitrix24.encode_cmd`: resort batch cmd by request keys and encode. -/
def encode_cmd (cmd : Entries) : String :=
  (sortKeys (keysOf cmd)).foldl
    (fun acc i =>
      acc ++ urlencode (.obj [("cmd", .obj [(i, (pyGet cmd i).getD .null)])]) ++ "&")
    ""

/-! ### The client and its collaborators -/

/-- `Bitrix24.__init__`'s state.  `auth_token`/`refresh_token` are stored
as values because `refresh_tokens` assigns them straight from the decoded
JSON response. -/
structure Client where
  domain : String
  auth_token : JValue
  refresh_token : JValue
  client_id : String
  client_secret : String
  webhook_key : String
  webhook_user : Int

inductive RespKind where
  | success : RespKind
  | readTimeout : RespKind
  | connError : RespKind

/-- Outcome of one `requests.post`, with the JSON codec collaborator's view
of the body: `jsonv = none` models text that `loads` rejects. -/
structure Resp where
  kind : RespKind
  text : String
  jsonv : Option JValue

/-- Transport oracle: the `n`-th POST to the API endpoint and the `n`-th
POST to the OAuth endpoint. -/
structure World where
  api : Nat → Resp
  oauth : Nat → Resp

def errObj (msg : String) : JValue := .obj [("error", .s msg)]

/-- `Bitrix24.get_url` (lines 124-128): webhook URL form when a webhook key
is configured (non-empty string is truthy), else the OAuth API form. -/
def get_url (c : Client) (method : String) : String :=
  if c.webhook_key ≠ "" then
    "https://" ++ c.domain ++ ".bitrix24.ru/rest/" ++ toString c.webhook_user ++ "/"
      ++ c.webhook_key ++ "/" ++ method
  else
    "https://" ++ c.domain ++ "/rest/" ++ method ++ ".json"

/-- `Bitrix24.refresh_tokens` (lines 97-116).  Only `ValueError` and
`KeyError` are caught; transport exceptions from the OAuth POST, and the
`TypeError` of subscripting a non-dict decode, propagate (`.error`).
On success returns `True` (`.b true`) with both tokens overwritten; the
caught failures return the decode-error dict.  Note the partial mutation:
`self.auth_token` is assigned before `self.refresh_token` is read. -/
def refresh_tokens (c : Client) (resp : Resp) : Except String (Client × JValue) :=
  match resp.kind with
  | .readTimeout => .error "requests.exceptions.ReadTimeout"
  | .connError => .error "requests.exceptions.ConnectionError"
  | .success =>
    match resp.jsonv with
    | none => .ok (c, errObj ("Error on decode oauth response [" ++ resp.text ++ "]"))
    | some (.obj es) =>
      match pyGet es "access_token" with
      | none => .ok (c, errObj ("Error on decode oauth response [" ++ resp.text ++ "]"))
      | some tok =>
        let c₁ := { c with auth_token := tok }
        match pyGet es "refresh_token" with
        | none => .ok (c₁, errObj ("Error on decode oauth response [" ++ resp.text ++ "]"))
        | some rtok => .ok ({ c₁ with refresh_token := rtok }, .b true)
    | some _ => .error "TypeError: not subscriptable by str"

/-- `Bitrix24.get_tokens` (lines 118-122). -/
def get_tokens (c : Client) : Entries :=
  [("auth_token", c.auth_token), ("refresh_token", c.refresh_token)]

/-! ### `Bitrix24.call` (lines 43-95) -/

/-- One request as recorded at the transport boundary: the URL and encoded
body of the POST, plus the `call` arguments it was issued for. -/
structure Req where
  url : String
  body : String
  method : String
  p1 : Option Entries
  p2 : Option Entries
  p3 : Option Entries
  p4 : Option Entries

/-- The batch pre-processing step of `call` (lines 55-57): when the method
is `batch` and `params1` has no `prepared` marker, rewrite `params1['cmd']`
through `prepare_batch` and set the marker.  `params1` of `None` or without
`cmd` raises. -/
def prepP1 (m : String) (p1 : Option Entries) : Except String (Option Entries) :=
  if m = "batch" then
    match p1 with
    | none => .error "TypeError: argument of type NoneType is not iterable"
    | some es =>
      if hasKey es "prepared" then .ok (some es)
      else
        match pyGet es "cmd" with
        | none => .error "KeyError: cmd"
        | some cmdv =>
          match (prepare_batch cmdv).1 with
          | .error e => .error e
          | .ok bp => .ok (some (pySet (pySet es "cmd" (.obj bp)) "prepared" (.b true)))
  else .ok p1

/-- Encoding of one parameter slot (lines 62-68): a slot containing `cmd`
is encoded via `encode_cmd` plus the form-encoded `halt` flag, any other
slot is form-encoded whole. -/
def encSlot (i : Entries) : Except String String :=
  if hasKey i "cmd" then
    match pyGet i "cmd" with
    | some (.obj cmdes) =>
      match pyGet i "halt" with
      | some h => .ok (encode_cmd cmdes ++ "&" ++ urlencode (.obj [("halt", h)]) ++ "&")
      | none => .error "KeyError: halt"
    | some _ => .error "AttributeError: keys"
    | none => .error "KeyError: cmd"
  else .ok (urlencode (.obj i) ++ "&")

/-- Encoding of the four positional slots, in order. -/
def encSlots4 (p1 p2 p3 p4 : Option Entries) : Except String String :=
  [p1, p2, p3, p4].foldlM
    (fun acc p =>
      match p with
      | none => .ok acc
      | some i => (encSlot i).map (acc ++ ·))
    ""

/-- The trailing implicit auth slot `{'auth': self.auth_token}`, appended
when the configured auth token is truthy. -/
def authEnc (c : Client) : String :=
  if pyTruthy c.auth_token then urlencode (.obj [("auth", c.auth_token)]) ++ "&" else ""

/-- The whole encoded POST body of one `call`. -/
def encodeSlots (c : Client) (p1 p2 p3 p4 : Option Entries) : Except String String :=
  (encSlots4 p1 p2 p3 p4).map (· ++ authEnc c)

/-- Substring test, for Python's `in` on strings. -/
def isSubstr (needle : List Char) : List Char → Bool
  | [] => needle.isEmpty
  | c :: rest => List.isPrefixOf needle (c :: rest) || isSubstr needle rest

/-- Models `'error' in result` (line 84): key test on dicts, membership on
lists, substring test on strings, `TypeError` otherwise. -/
def pyContainsError : JValue → Except String Bool
  | .obj es => .ok (hasKey es "error")
  | .arr xs => .ok (xs.any (fun x => isStrEq x "error"))
  | .s t => .ok (isSubstr "error".data t.data)
  | _ => .error "TypeError: argument not iterable"

/-- Models `result['error']` once `'error' in result` held. -/
def pySubscrError : JValue → Except String JValue
  | .obj es =>
    match pyGet es "error" with
    | some v => .ok v
    | none => .error "KeyError: error"
  | _ => .error "TypeError: not subscriptable by str"

/-- Result of one `call` invocation: the returned value (or the raised
exception), the client state after it, the next unread indices of the two
transport oracles, and the API POSTs it performed (in order). -/
structure CallOut where
  result : Except String JValue
  client : Client
  aIdx : Nat
  oIdx : Nat
  reqs : List Req

/-- Decoding one API response (lines 70-83): the decoded JSON on success,
else one of the three synthesized error results. -/
def decodeResp (r : Resp) : JValue :=
  match r.kind with
  | .readTimeout => errObj "Timeout waiting expired [60 sec]"
  | .connError => errObj "Max retries exceeded [10]"
  | .success =>
    match r.jsonv with
    | none => errObj ("Error on decode api response [" ++ r.text ++ "]")
    | some j => j

inductive CallClass where
  | authError : CallClass
  | rateLimit : CallClass
  | plain : CallClass

/-- The error classification of lines 84-95: `'error' in result` and the
comparison of `result['error']` against the two retry code sets. -/
def classify (result : JValue) : Except String CallClass :=
  match pyContainsError result with
  | .error e => .error e
  | .ok false => .ok .plain
  | .ok true =>
    match pySubscrError result with
    | .error e => .error e
    | .ok v =>
      if isStrEq v "NO_AUTH_FOUND" || isStrEq v "expired_token" then .ok .authError
      else if isStrEq v "QUERY_LIMIT_EXCEEDED" then .ok .rateLimit
      else .ok .plain

/-- `Bitrix24.call`, fuel-indexed: each recursive retry (token refresh,
rate limit) consumes one unit of fuel; an exhausted-fuel run is marked by
the `"fuel"` error and never arises in the theorems below. -/
def callFuel (w : World) : Nat → Client → Nat → Nat → JValue →
    Option Entries → Option Entries → Option Entries → Option Entries → CallOut
  | fuel, c, aIdx, oIdx, method, p1, p2, p3, p4 =>
    -- line 52: `if method == '' or not isinstance(method, str)`
    if isStrEq method "" || !method.isStr then
      ⟨.error "Empty Method", c, aIdx, oIdx, []⟩
    else
      match prepP1 method.asStr p1 with
      | .error e => ⟨.error e, c, aIdx, oIdx, []⟩
      | .ok p1' =>
        match encodeSlots c p1' p2 p3 p4 with
        | .error e => ⟨.error e, c, aIdx, oIdx, []⟩
        | .ok body =>
          match classify (decodeResp (w.api aIdx)) with
          | .error e =>
            ⟨.error e, c, aIdx + 1, oIdx,
              [⟨get_url c method.asStr, body, method.asStr, p1', p2, p3, p4⟩]⟩
          | .ok .plain =>
            ⟨.ok (decodeResp (w.api aIdx)), c, aIdx + 1, oIdx,
              [⟨get_url c method.asStr, body, method.asStr, p1', p2, p3, p4⟩]⟩
          | .ok .authError =>
            -- lines 84-89: refresh tokens; on failure return it, else retry once
            match refresh_tokens c (w.oauth oIdx) with
            | .error e =>
              ⟨.error e, c, aIdx + 1, oIdx + 1,
                [⟨get_url c method.asStr, body, method.asStr, p1', p2, p3, p4⟩]⟩
            | .ok (c₁, rres) =>
              -- line 86: `if result is not True: return result`
              match rres with
              | .b true =>
                match fuel with
                | 0 =>
                  ⟨.error "fuel", c₁, aIdx + 1, oIdx + 1,
                    [⟨get_url c method.asStr, body, method.asStr, p1', p2, p3, p4⟩]⟩
                | fuel' + 1 =>
                  let rest := callFuel w fuel' c₁ (aIdx + 1) (oIdx + 1) method p1' p2 p3 p4
                  ⟨rest.result, rest.client, rest.aIdx, rest.oIdx,
                    ⟨get_url c method.asStr, body, method.asStr, p1', p2, p3, p4⟩ :: rest.reqs⟩
              | _ =>
                ⟨.ok rres, c₁, aIdx + 1, oIdx + 1,
                  [⟨get_url c method.asStr, body, method.asStr, p1', p2, p3, p4⟩]⟩
          | .ok .rateLimit =>
            -- lines 90-94: sleep two seconds, then retry
            match fuel with
            | 0 =>
              ⟨.error "fuel", c, aIdx + 1, oIdx,
                [⟨get_url c method.asStr, body, method.asStr, p1', p2, p3, p4⟩]⟩
            | fuel' + 1 =>
              let rest := callFuel w fuel' c (aIdx + 1) oIdx method p1' p2 p3 p4
              ⟨rest.result, rest.client, rest.aIdx, rest.oIdx,
                ⟨get_url c method.asStr, body, method.asStr, p1', p2, p3, p4⟩ :: rest.reqs⟩

/-! ### `Bitrix24.batch` (lines 168-196)

`batch` drives `call('batch', {'halt': …, 'cmd': chunk})` once per chunk of
at most 49 sorted request ids and folds each response into an accumulator.
The inner `call` is abstracted by an oracle giving the decoded result of
the `n`-th `call('batch', …)` invocation. -/

/-- One iteration of the merge loop (lines 191-193) for one key `i` of
`temp['result']`: skip empty values, else
`result['result'][i] = merge_two_dicts(temp['result'][i], result['result'][i])`.
A key absent from the initialized accumulator raises `KeyError`; values
without `len`, or merges on non-dicts, raise. -/
def mergeStep (tres : Entries) (acc : Entries) (i : String) : Except String Entries :=
  let v := (pyGet tres i).getD .null
  match jLen v with
  | none => .error "TypeError: object has no len()"
  | some l =>
    if l > 0 then
      match pyGet acc i with
      | none => .error "KeyError"
      | some av =>
        match v, av with
        | .obj ve, .obj ave => .ok (pySet acc i (.obj (merge_two_dicts ve ave)))
        | _, _ => .error "AttributeError: copy/update"
    else .ok acc

/-- Folding one chunk response `temp` into the accumulator `result['result']`
(lines 191-193): `for i in temp['result']: …`. -/
def mergeChunk (acc : Entries) (temp : JValue) : Except String Entries :=
  match temp with
  | .obj tes =>
    match pyGet tes "result" with
    | some (.obj tres) => (keysOf tres).foldlM (mergeStep tres) acc
    | some (.arr []) => .ok acc
    | some (.s t) => if t = "" then .ok acc else .error "TypeError: string indices"
    | some _ => .error "TypeError: not iterable"
    | none => .error "KeyError: result"
  | _ => .error "TypeError: not subscriptable"

/-- The chunking loop of `batch` (lines 184-194): accumulate sorted request
ids into `batch`, flush through `call` when it holds 49 ids or the running
count reaches the total.  Returns the chunk (the `cmd` dict) of every
`call('batch', …)` invocation, in order, and the final accumulator. -/
def batchGo (oracle : Nat → JValue) (cmd : Entries) (total : Nat) :
    List String → Nat → Entries → Nat → Entries → Except String (List Entries × Entries)
  | [], _, _, _, acc => .ok ([], acc)
  | k :: rest, count, cur, idx, acc =>
    -- `batch[request_id] = params['cmd'][request_id]; count += 1`
    if (pySet cur k ((pyGet cmd k).getD .null)).length = 49 || count + 1 = total then
      match mergeChunk acc (oracle idx) with
      | .error e => .error e
      | .ok acc' =>
        match batchGo oracle cmd total rest (count + 1) [] (idx + 1) acc' with
        | .error e => .error e
        | .ok (calls, fin) => .ok (pySet cur k ((pyGet cmd k).getD .null) :: calls, fin)
    else
      batchGo oracle cmd total rest (count + 1) (pySet cur k ((pyGet cmd k).getD .null)) idx acc

/-- The accumulator initialized at lines 178-183, in keyword order. -/
def initAcc : Entries :=
  [("result_error", .obj []), ("result_total", .obj []),
   ("result", .obj []), ("result_next", .obj [])]

/-- `Bitrix24.batch`.  The first component lists the `cmd` chunk of each
underlying `call('batch', …)` invocation; the second is the returned value. -/
def pyBatch (oracle : Nat → JValue) (params : Entries) :
    Except String (List Entries × JValue) :=
  if !hasKey params "halt" || !hasKey params "cmd" then
    .ok ([], .obj [("error", .s "Invalid batch structure")])
  else
    match pyGet params "cmd" with
    | some (.obj cmd) =>
      match batchGo oracle cmd cmd.length (sortKeys (keysOf cmd)) 0 [] 0 initAcc with
      | .error e => .error e
      | .ok (calls, fin) => .ok (calls, .obj [("result", .obj fin)])
    | some _ => .error "AttributeError: keys"
    | none => .error "KeyError: cmd"

/-- Reading `v['result'][s][id]` of a decoded value: used both for chunk
responses and for `batch`'s returned accumulator. -/
def resultSub (v : JValue) (s id : String) : Option JValue :=
  match v with
  | .obj es =>
    match pyGet es "result" with
    | some (.obj fs) =>
      match pyGet fs s with
      | some (.obj sub) => pyGet sub id
      | _ => none
    | _ => none
  | _ => none

/-- Reading the whole sub-map `v['result'][s]`. -/
def subMapOf (v : JValue) (s : String) : Option JValue :=
  match v with
  | .obj es =>
    match pyGet es "result" with
    | some (.obj fs) => pyGet fs s
    | _ => none
  | _ => none

/-- The value the accumulator ends up holding at sub-map `s`, id `id`: the
value from the EARLIEST of the `n` chunk responses that carries this id
(later chunks do not overwrite it). -/
def firstChunkValue (oracle : Nat → JValue) (n : Nat) (s id : String) : Option JValue :=
  (List.range n).foldl (fun o j => o.orElse (fun _ => resultSub (oracle j) s id)) none

/-- The slicing of a key list into runs of 49, as `batch`'s loop produces. -/
def chunksOf49 : List String → List (List String)
  | [] => []
  | k :: rest => ((k :: rest).take 49) :: chunksOf49 ((k :: rest).drop 49)
termination_by l => l.length
decreasing_by simp; omega

/-! ### The chunking behaviour of `batch` -/

theorem chunksOf49_nil : chunksOf49 [] = [] := by rw [chunksOf49]

theorem chunksOf49_ne_nil (l : List String) (h : l ≠ []) :
    chunksOf49 l = l.take 49 :: chunksOf49 (l.drop 49) := by
  cases l with
  | nil => exact absurd rfl h
  | cons k rest => rw [chunksOf49]

theorem chunksOf49_join (l : List String) : (chunksOf49 l).join = l := by
  suffices h : ∀ (n : Nat) (l : List String), l.length ≤ n → (chunksOf49 l).join = l from
    h l.length l (le_refl _)
  intro n
  induction n with
  | zero =>
    intro l hl
    have hnil : l = [] := List.eq_nil_of_length_eq_zero (Nat.le_zero.1 hl)
    simp [hnil, chunksOf49_nil]
  | succ n ihn =>
    intro l hl
    cases l with
    | nil => simp [chunksOf49_nil]
    | cons k rest =>
      rw [chunksOf49_ne_nil _ (by simp)]
      show List.take 49 (k :: rest) ++ (chunksOf49 (List.drop 49 (k :: rest))).join
        = k :: rest
      rw [ihn _ (by simp only [List.length_drop, List.length_cons] at hl ⊢; omega),
        List.take_append_drop]

theorem length_pySet_of_not_mem (es : Entries) {k : String} (v : JValue)
    (h : k ∉ keysOf es) : (pySet es k v).length = es.length + 1 := by
  have h1 := congrArg List.length (keysOf_pySet_of_not_mem es v h)
  simpa [keysOf] using h1

theorem keysOf_length (es : Entries) : (keysOf es).length = es.length := by
  simp [keysOf]

/-- The chunks of `batch`'s loop are exactly the 49-element slices of the
sorted key list: core induction. -/
theorem batchGo_calls (oracle : Nat → JValue) (cmd : Entries) (total : Nat) :
    ∀ (keys : List String) (count : Nat) (cur : Entries) (idx : Nat) (acc : Entries)
      (calls : List Entries) (fin : Entries),
      (keysOf cur ++ keys).Nodup →
      cur.length < 49 →
      count + keys.length = total →
      (keys = [] → cur = []) →
      batchGo oracle cmd total keys count cur idx acc = .ok (calls, fin) →
      calls.map keysOf = chunksOf49 (keysOf cur ++ keys) := by
  intro keys
  induction keys with
  | nil =>
    intro count cur idx acc calls fin _ _ _ hnil hrun
    rw [hnil rfl] at hrun ⊢
    rw [batchGo] at hrun
    cases hrun
    simp [chunksOf49_nil, keysOf]
  | cons k rest ih =>
    intro count cur idx acc calls fin hnd hlen htot hnil hrun
    have hknotin : k ∉ keysOf cur := by
      have hdis := List.disjoint_of_nodup_append hnd
      intro hc
      exact hdis hc (by simp)
    have hkeys' : keysOf (pySet cur k ((pyGet cmd k).getD .null)) = keysOf cur ++ [k] :=
      keysOf_pySet_of_not_mem cur _ hknotin
    have hlen' : (pySet cur k ((pyGet cmd k).getD .null)).length = cur.length + 1 :=
      length_pySet_of_not_mem cur _ hknotin
    have hL : keysOf cur ++ k :: rest
        = keysOf (pySet cur k ((pyGet cmd k).getD .null)) ++ rest := by
      rw [hkeys', List.append_assoc]
      rfl
    have htot' : count + 1 + rest.length = total := by
      simp only [List.length_cons] at htot
      omega
    have hrestnd : rest.Nodup :=
      List.Nodup.sublist
        ((List.sublist_cons_self k rest).trans (List.sublist_append_right _ _)) hnd
    rw [batchGo] at hrun
    split at hrun
    case isTrue hcond =>
      split at hrun
      · cases hrun
      · rename_i acc' hmc
        split at hrun
        · cases hrun
        · next calls2 fin2 hrec =>
          cases hrun
          simp only [Bool.or_eq_true, decide_eq_true_eq] at hcond
          by_cases h49 : (pySet cur k ((pyGet cmd k).getD .null)).length = 49
          · -- the chunk reached 49 entries
            have hklen : (keysOf (pySet cur k ((pyGet cmd k).getD .null))).length = 49 := by
              rw [keysOf_length]; exact h49
            have htake : (keysOf cur ++ k :: rest).take 49
                = keysOf (pySet cur k ((pyGet cmd k).getD .null)) := by
              rw [hL]; exact List.take_left' hklen
            have hdrop : (keysOf cur ++ k :: rest).drop 49 = rest := by
              rw [hL]; exact List.drop_left' hklen
            rw [chunksOf49_ne_nil _ (by simp), htake, hdrop, List.map_cons]
            rw [ih _ _ _ _ _ _
              (by simpa [keysOf] using hrestnd) (by simp) htot' (fun _ => rfl) hrec]
            simp [keysOf]
          · -- flushed because the count reached the total: this was the last key
            have hrest : rest = [] := by
              rcases hcond with hcond | hcond
              · exact absurd hcond h49
              · exact List.eq_nil_of_length_eq_zero (by omega)
            subst hrest
            rw [batchGo] at hrec
            cases hrec
            have hlelen : (keysOf cur ++ k :: ([] : List String)).length ≤ 49 := by
              simp only [List.length_append, List.length_cons, List.length_nil,
                keysOf_length]
              omega
            rw [chunksOf49_ne_nil _ (by simp), List.take_of_length_le hlelen,
              List.drop_eq_nil_of_le hlelen, chunksOf49_nil, List.map_cons, List.map_nil]
            rw [hkeys']
    case isFalse hcond =>
      simp only [Bool.or_eq_true, decide_eq_true_eq, not_or] at hcond
      have hrestne : rest ≠ [] := by
        intro hc
        subst hc
        simp only [List.length_nil] at htot'
        exact hcond.2 htot'
      have hres := ih (count + 1) (pySet cur k ((pyGet cmd k).getD .null)) idx acc calls fin
        (by rw [← hL]; exact hnd) (by omega) htot' (fun h => absurd h hrestne) hrun
      rw [hres, hL]

theorem chunksOf49_map_length_120 (l : List String) (h : l.length = 120) :
    (chunksOf49 l).map List.length = [49, 49, 22] := by
  have h0 : l ≠ [] := by
    intro hc; rw [hc] at h; simp at h
  rw [chunksOf49_ne_nil _ h0]
  have hd1 : (l.drop 49).length = 71 := by simp [h]
  have h1 : l.drop 49 ≠ [] := by
    intro hc; rw [hc] at hd1; simp at hd1
  rw [chunksOf49_ne_nil _ h1]
  have hd2 : ((l.drop 49).drop 49).length = 22 := by simp [h]
  have h2 : (l.drop 49).drop 49 ≠ [] := by
    intro hc; rw [hc] at hd2; simp at hd2
  rw [chunksOf49_ne_nil _ h2]
  have hd3 : ((l.drop 49).drop 49).drop 49 = [] :=
    List.eq_nil_of_length_eq_zero (by simp [h])
  rw [hd3, chunksOf49_nil]
  simp [List.length_take, h, hd1, hd2]

/-- C5: a batch command map with exactly 120 request ids (and `halt`
present) issues exactly 3 underlying `call('batch', …)` invocations, whose
`cmd` chunks hold 49, 49 and 22 request ids respectively, and the chunks
partition the request ids in sorted lexicographic order, preserved within
and across chunks (the concatenation of the chunk key lists is exactly the
sorted key list). -/
theorem batch_120_commands_three_calls (oracle : Nat → JValue)
    (params cmd : Entries) (calls : List Entries) (res : JValue)
    (hhalt : hasKey params "halt" = true)
    (hcmd : pyGet params "cmd" = some (.obj cmd))
    (hnd : (keysOf cmd).Nodup)
    (hlen : cmd.length = 120)
    (hrun : pyBatch oracle params = .ok (calls, res)) :
    calls.length = 3 ∧
    (calls.map keysOf).map List.length = [49, 49, 22] ∧
    (calls.map keysOf).join = sortKeys (keysOf cmd) := by
  have hck : hasKey params "cmd" = true := hasKey_of_pyGet hcmd
  unfold pyBatch at hrun
  rw [hhalt, hck, hcmd] at hrun
  simp only [Bool.not_true, Bool.or_self, Bool.false_eq_true, if_false] at hrun
  split at hrun
  · cases hrun
  · rename_i calls' fin' heq
    injection hrun with hpr
    have hc : calls' = calls := congrArg Prod.fst hpr
    rw [← hc]
    have hmain := batchGo_calls oracle cmd cmd.length (sortKeys (keysOf cmd)) 0 [] 0 initAcc
      calls' fin'
      (by simpa [keysOf] using sortKeys_nodup hnd)
      (by simp)
      (by simp [sortKeys_length, keysOf_length])
      (fun h => rfl)
      heq
    rw [show keysOf ([] : Entries) = [] from rfl, List.nil_append] at hmain
    have hsl : (sortKeys (keysOf cmd)).length = 120 := by
      rw [sortKeys_length, keysOf_length, hlen]
    refine ⟨?_, ?_, ?_⟩
    · have h3 := congrArg List.length (chunksOf49_map_length_120 _ hsl)
      simp only [List.length_map, List.length_cons, List.length_nil] at h3
      have h4 := congrArg List.length hmain
      simp only [List.length_map] at h4
      rw [h4]
      omega
    · rw [hmain]
      exact chunksOf49_map_length_120 _ hsl
    · rw [hmain]
      exact chunksOf49_join _

/-- A concrete 120-request batch command map: ids "100" … "219". -/
def cmd120 : Entries := (List.range 120).map (fun i => (toString (100 + i), JValue.null))

def params120 : Entries := [("halt", .n 0), ("cmd", .obj cmd120)]

/-- A benign oracle: every chunk call returns `{'result': {}}`. -/
def oracleEmpty : Nat → JValue := fun _ => .obj [("result", .obj [])]

def calls120 : List Entries := [cmd120.take 49, (cmd120.drop 49).take 49, cmd120.drop 98]

set_option maxRecDepth 20000 in
theorem batch_120_commands_three_calls_witness :
    pyBatch oracleEmpty params120 = .ok (calls120, .obj [("result", .obj initAcc)]) ∧
    calls120.length = 3 ∧
    (calls120.map keysOf).map List.length = [49, 49, 22] ∧
    (calls120.map keysOf).join = sortKeys (keysOf cmd120) := by
  have hrun : pyBatch oracleEmpty params120
      = .ok (calls120, .obj [("result", .obj initAcc)]) := by rfl
  have h := batch_120_commands_three_calls oracleEmpty params120 cmd120 calls120
    (.obj [("result", .obj initAcc)]) (by rfl) (by rfl) (by decide) (by rfl) hrun
  exact ⟨hrun, h.1, h.2.1, h.2.2⟩

/-! ### Claims about `call`: pre-flight validation and URL selection -/

/-- C7: for every method argument that is the empty string or not a string
(including `None`), `call` raises the InvalidArgument fault
(`Exception('Empty Method')`) before any network activity: the state is
untouched and the transport request list is empty. -/
theorem call_invalid_method_no_network (w : World) (fuel : Nat) (c : Client)
    (aIdx oIdx : Nat) (method : JValue) (p1 p2 p3 p4 : Option Entries)
    (h : method = .s "" ∨ method.isStr = false) :
    callFuel w fuel c aIdx oIdx method p1 p2 p3 p4
      = ⟨.error "Empty Method", c, aIdx, oIdx, []⟩ := by
  have hcond : (isStrEq method "" || !method.isStr) = true := by
    rcases h with h | h
    · subst h
      simp [isStrEq]
    · simp [h]
  rw [callFuel, if_pos hcond]

def demoWorld : World :=
  ⟨fun _ => ⟨.success, "{}", some (.obj [])⟩, fun _ => ⟨.success, "{}", some (.obj [])⟩⟩

def demoClient : Client :=
  ⟨"portal.example", .s "tok0", .s "ref0", "cid", "csec", "", 1⟩

theorem call_invalid_method_no_network_witness :
    callFuel demoWorld 5 demoClient 0 0 .null none none none none
      = ⟨.error "Empty Method", demoClient, 0, 0, []⟩ :=
  call_invalid_method_no_network demoWorld 5 demoClient 0 0 .null none none none none
    (Or.inr rfl)

theorem refresh_tokens_preserves_url_fields {c : Client} {r : Resp} {c' : Client}
    {v : JValue} (h : refresh_tokens c r = .ok (c', v)) :
    c'.domain = c.domain ∧ c'.webhook_key = c.webhook_key
      ∧ c'.webhook_user = c.webhook_user := by
  unfold refresh_tokens at h
  repeat' split at h
  all_goals cases h
  all_goals exact ⟨rfl, rfl, rfl⟩

/-- C8: every POST a `call` run issues (initial request and any retries)
goes to the webhook URL form exactly when the configured webhook key is
non-empty, and to the OAuth API URL form exactly when it is empty. -/
theorem call_url_selection (w : World) :
    ∀ (fuel : Nat) (c : Client) (aIdx oIdx : Nat) (method : JValue)
      (p1 p2 p3 p4 : Option Entries) (req : Req),
      req ∈ (callFuel w fuel c aIdx oIdx method p1 p2 p3 p4).reqs →
      (c.webhook_key ≠ "" →
        req.url = "https://" ++ c.domain ++ ".bitrix24.ru/rest/"
          ++ toString c.webhook_user ++ "/" ++ c.webhook_key ++ "/" ++ method.asStr) ∧
      (c.webhook_key = "" →
        req.url = "https://" ++ c.domain ++ "/rest/" ++ method.asStr ++ ".json") := by
  intro fuel
  induction fuel with
  | zero =>
    intro c aIdx oIdx method p1 p2 p3 p4 req hmem
    have hone : (c.webhook_key ≠ "" →
        get_url c method.asStr = "https://" ++ c.domain ++ ".bitrix24.ru/rest/"
          ++ toString c.webhook_user ++ "/" ++ c.webhook_key ++ "/" ++ method.asStr) ∧
      (c.webhook_key = "" →
        get_url c method.asStr
          = "https://" ++ c.domain ++ "/rest/" ++ method.asStr ++ ".json") := by
      constructor
      · intro hk
        rw [get_url, if_pos hk]
      · intro hk
        rw [get_url, if_neg (by simp [hk])]
    rw [callFuel] at hmem
    repeat' split at hmem
    all_goals first
    | omega
    | exact absurd hmem (List.not_mem_nil _)
    | (simp only [List.mem_singleton] at hmem
       subst hmem
       exact hone)
  | succ fuel ih =>
    intro c aIdx oIdx method p1 p2 p3 p4 req hmem
    have hone : (c.webhook_key ≠ "" →
        get_url c method.asStr = "https://" ++ c.domain ++ ".bitrix24.ru/rest/"
          ++ toString c.webhook_user ++ "/" ++ c.webhook_key ++ "/" ++ method.asStr) ∧
      (c.webhook_key = "" →
        get_url c method.asStr
          = "https://" ++ c.domain ++ "/rest/" ++ method.asStr ++ ".json") := by
      constructor
      · intro hk
        rw [get_url, if_pos hk]
      · intro hk
        rw [get_url, if_neg (by simp [hk])]
    rw [callFuel] at hmem
    split at hmem
    · exact absurd hmem (List.not_mem_nil _)
    · split at hmem
      · exact absurd hmem (List.not_mem_nil _)
      · rename_i p1' hprep
        split at hmem
        · exact absurd hmem (List.not_mem_nil _)
        · rename_i body henc
          split at hmem
          · -- classification raised
            simp only [List.mem_singleton] at hmem
            subst hmem
            exact hone
          · -- plain result, returned as-is
            simp only [List.mem_singleton] at hmem
            subst hmem
            exact hone
          · -- auth error: refresh then maybe retry
            split at hmem
            · -- refresh raised
              simp only [List.mem_singleton] at hmem
              subst hmem
              exact hone
            · rename_i c1 rres href
              split at hmem
              · -- refresh returned True: one retry with the refreshed client
                simp only [List.mem_cons] at hmem
                rcases hmem with rfl | hmem
                · exact hone
                · have hpres := refresh_tokens_preserves_url_fields href
                  have hih := ih c1 (aIdx + 1) (oIdx + 1) method p1' p2 p3 p4 req hmem
                  rw [hpres.1, hpres.2.1, hpres.2.2] at hih
                  exact hih
              · -- refresh returned its failure result
                simp only [List.mem_singleton] at hmem
                subst hmem
                exact hone
          · -- rate limited: retry with the same client
            simp only [List.mem_cons] at hmem
            rcases hmem with rfl | hmem
            · exact hone
            · exact ih c (aIdx + 1) oIdx method p1' p2 p3 p4 req hmem

def demoReq : Req :=
  ⟨"https://portal.example/rest/user.get.json", "auth=tok0&", "user.get",
    none, none, none, none⟩

theorem call_url_selection_witness :
    demoReq ∈ (callFuel demoWorld 1 demoClient 0 0 (.s "user.get")
      none none none none).reqs ∧
    demoClient.webhook_key = "" ∧
    demoReq.url = "https://" ++ demoClient.domain ++ "/rest/"
      ++ (JValue.s "user.get").asStr ++ ".json" := by
  have hmem : demoReq ∈ (callFuel demoWorld 1 demoClient 0 0 (.s "user.get")
      none none none none).reqs := by
    rw [show (callFuel demoWorld 1 demoClient 0 0 (.s "user.get")
      none none none none).reqs = [demoReq] from rfl]
    exact List.mem_singleton.mpr rfl
  exact ⟨hmem, rfl,
    (call_url_selection demoWorld 1 demoClient 0 0 (.s "user.get")
      none none none none demoReq hmem).2 rfl⟩

/-! ### Claim C4: the refresh-and-retry control flow of `call` -/

/-- A successful `prepP1` pass is idempotent: the batch bundle it returns
carries the `prepared` marker, so a retried `call` does not re-prepare. -/
theorem prepP1_ok_again {m : String} {p1 p1' : Option Entries}
    (h : prepP1 m p1 = .ok p1') : prepP1 m p1' = .ok p1' := by
  unfold prepP1 at h ⊢
  split at h
  next hb =>
    rw [if_pos hb]
    split at h
    next => cases h
    next es =>
      split at h
      next hk =>
        cases h
        dsimp only
        rw [if_pos hk]
      next hk =>
        split at h
        next => cases h
        next cmdv hcmd =>
          split at h
          next => cases h
          next bp hbp =>
            cases h
            dsimp only
            rw [if_pos (hasKey_of_pyGet (pyGet_pySet_self _ "prepared" (.b true)))]
  next hb =>
    rw [if_neg hb]

/-- Whether `encodeSlots` succeeds depends only on the parameter slots, not
on the client (the trailing auth slot always encodes). -/
theorem encodeSlots_ok_other {c : Client} {p1 p2 p3 p4 : Option Entries} {b : String}
    (h : encodeSlots c p1 p2 p3 p4 = .ok b) (c' : Client) :
    ∃ b', encodeSlots c' p1 p2 p3 p4 = .ok b' := by
  unfold encodeSlots at h
  cases henc : encSlots4 p1 p2 p3 p4 with
  | error e =>
    rw [henc] at h
    cases h
  | ok b0 =>
    exact ⟨b0 ++ authEnc c', by unfold encodeSlots; rw [henc]; rfl⟩

/-- A refresh that returned `True` stored the response's `access_token`
as the client's auth token. -/
theorem refresh_tokens_true_auth {c : Client} {r : Resp} {c₁ : Client}
    (h : refresh_tokens c r = .ok (c₁, .b true)) {es : Entries} {tok : JValue}
    (hjson : r.jsonv = some (.obj es)) (htok : pyGet es "access_token" = some tok) :
    c₁.auth_token = tok := by
  unfold refresh_tokens at h
  split at h
  · cases h
  · cases h
  · split at h
    · rename_i hnone
      rw [hjson] at hnone
      cases hnone
    case _ es' hsome =>
      rw [hjson] at hsome
      injection hsome with hsome
      injection hsome with hsome
      subst hsome
      split at h
      · injection h with h
        have hv : errObj ("Error on decode oauth response [" ++ r.text ++ "]") = .b true :=
          congrArg Prod.snd h
        simp [errObj] at hv
      case _ tok' htok' =>
        split at h
        · injection h with h
          have hv : errObj ("Error on decode oauth response [" ++ r.text ++ "]") = .b true :=
            congrArg Prod.snd h
          simp [errObj] at hv
        · injection h with h
          rw [Prod.mk.injEq] at h
          obtain ⟨hc, -⟩ := h
          rw [htok'] at htok
          injection htok with htok
          rw [← hc]
          exact htok
    · cases h

/-- C4: when a `call` response carries error `NO_AUTH_FOUND` or
`expired_token` (classification `authError`), and tokens are refreshed:
(a) if the refresh returns a failure result, `call` returns that result
immediately, with no further POST (exactly the one original request);
(b) if the refresh returns `True`, `call` is re-issued exactly once with
the identical method and identical four positional parameter bundles (one
further POST), and the client's stored auth token afterwards equals the
`access_token` value of the refresh response. -/
theorem call_auth_refresh_retry (w : World) (fuel : Nat) (c : Client)
    (aIdx oIdx : Nat) (m : String) (p1 p2 p3 p4 p1' : Option Entries)
    (body : String)
    (hm0 : m ≠ "")
    (hprep : prepP1 m p1 = .ok p1')
    (henc : encodeSlots c p1' p2 p3 p4 = .ok body)
    (hcls : classify (decodeResp (w.api aIdx)) = .ok .authError) :
    (∀ c₁ rres, refresh_tokens c (w.oauth oIdx) = .ok (c₁, rres) →
      rres ≠ .b true →
      callFuel w (fuel + 1) c aIdx oIdx (.s m) p1 p2 p3 p4
        = ⟨.ok rres, c₁, aIdx + 1, oIdx + 1,
            [⟨get_url c m, body, m, p1', p2, p3, p4⟩]⟩) ∧
    (∀ c₁, refresh_tokens c (w.oauth oIdx) = .ok (c₁, .b true) →
      classify (decodeResp (w.api (aIdx + 1))) = .ok .plain →
      (∃ body₂, callFuel w (fuel + 1) c aIdx oIdx (.s m) p1 p2 p3 p4
        = ⟨.ok (decodeResp (w.api (aIdx + 1))), c₁, aIdx + 2, oIdx + 1,
            [⟨get_url c m, body, m, p1', p2, p3, p4⟩,
             ⟨get_url c₁ m, body₂, m, p1', p2, p3, p4⟩]⟩) ∧
      (∀ es tok, (w.oauth oIdx).jsonv = some (.obj es) →
        pyGet es "access_token" = some tok → c₁.auth_token = tok)) := by
  have hnc : (isStrEq (.s m) "" || !(JValue.s m).isStr) = false := by
    simp [isStrEq, JValue.isStr, hm0]
  constructor
  · intro c₁ rres hr hne
    rw [callFuel]
    simp only [hnc, Bool.false_eq_true, if_false, JValue.asStr, hprep, henc, hcls, hr]
  · intro c₁ hr hp
    obtain ⟨body₂, henc₂⟩ := encodeSlots_ok_other henc c₁
    refine ⟨⟨body₂, ?_⟩, ?_⟩
    · rw [callFuel]
      simp only [hnc, Bool.false_eq_true, if_false, JValue.asStr, hprep, henc, hcls, hr]
      rw [callFuel]
      simp only [hnc, Bool.false_eq_true, if_false, JValue.asStr,
        prepP1_ok_again hprep, henc₂, hp]
    · intro es tok hj ht
      exact refresh_tokens_true_auth hr hj ht

/-- A world whose first API response is `expired_token`, whose second is a
plain result, and whose OAuth endpoint refreshes successfully. -/
def c4World : World :=
  ⟨fun n =>
    if n = 0 then ⟨.success, "\x7b\"error\": \"expired_token\"\x7d",
      some (.obj [("error", .s "expired_token")])⟩
    else ⟨.success, "\x7b\"result\": \"done\"\x7d", some (.obj [("result", .s "done")])⟩,
   fun _ => ⟨.success, "\x7b\"access_token\": \"newtok\", \"refresh_token\": \"newref\"\x7d",
      some (.obj [("access_token", .s "newtok"), ("refresh_token", .s "newref")])⟩⟩

def c4Refreshed : Client :=
  { demoClient with auth_token := .s "newtok", refresh_token := .s "newref" }

theorem call_auth_refresh_retry_witness :
    callFuel c4World 1 demoClient 0 0 (.s "user.get") none none none none
      = ⟨.ok (.obj [("result", .s "done")]), c4Refreshed, 2, 1,
          [⟨"https://portal.example/rest/user.get.json", "auth=tok0&", "user.get",
             none, none, none, none⟩,
           ⟨"https://portal.example/rest/user.get.json", "auth=newtok&", "user.get",
             none, none, none, none⟩]⟩
    ∧ c4Refreshed.auth_token = .s "newtok" := by
  have h := (call_auth_refresh_retry c4World 0 demoClient 0 0 "user.get"
    none none none none none "auth=tok0&" (by decide) rfl rfl rfl).2 c4Refreshed rfl rfl
  exact ⟨rfl, h.2 [("access_token", .s "newtok"), ("refresh_token", .s "newref")]
    (.s "newtok") rfl rfl⟩

/-! ### Claim C3: failure behaviour of `refresh_tokens` -/

/-- An OAuth response that decodes to a mapping holding `access_token` but
no `refresh_token`. -/
def respAccessOnly : Resp :=
  ⟨.success, "\x7b\"access_token\": \"NEW\"\x7d", some (.obj [("access_token", .s "NEW")])⟩

/-- C3 counterexample: on this failing refresh (missing `refresh_token`
field) the failure result is returned, but the stored auth token does NOT
stay unchanged: `self.auth_token = result['access_token']` has already run
when the `KeyError` is raised. -/
theorem refresh_tokens_mutates_on_failure_counterexample :
    refresh_tokens demoClient respAccessOnly
      = .ok ({ demoClient with auth_token := .s "NEW" },
          errObj "Error on decode oauth response [\x7b\"access_token\": \"NEW\"\x7d]")
    ∧ ({ demoClient with auth_token := .s "NEW" }).auth_token
        ≠ demoClient.auth_token := by
  refine ⟨rfl, ?_⟩
  intro hc
  injection hc with hc
  exact absurd hc (by decide)

/-- C3 amended: a failing `refresh_tokens` returns the decode-error result
and leaves `refresh_token` unchanged; `auth_token` is also unchanged,
except when the decoded mapping has `access_token` but no `refresh_token`,
in which case `auth_token` has already been overwritten with the response's
`access_token` value. -/
theorem refresh_tokens_failure_behavior (c : Client) (r : Resp)
    (hk : r.kind = .success)
    (hfail : r.jsonv = none ∨ ∃ es, r.jsonv = some (.obj es) ∧
      (pyGet es "access_token" = none ∨ pyGet es "refresh_token" = none)) :
    ∃ c', refresh_tokens c r
        = .ok (c', errObj ("Error on decode oauth response [" ++ r.text ++ "]"))
      ∧ c'.refresh_token = c.refresh_token
      ∧ (r.jsonv = none → c' = c)
      ∧ (∀ es, r.jsonv = some (.obj es) → pyGet es "access_token" = none → c' = c)
      ∧ (∀ es tok, r.jsonv = some (.obj es) → pyGet es "access_token" = some tok →
          pyGet es "refresh_token" = none → c'.auth_token = tok) := by
  rcases hfail with hnone | ⟨es, hes, hmiss⟩
  · refine ⟨c, ?_, rfl, fun _ => rfl, ?_, ?_⟩
    · unfold refresh_tokens
      simp only [hk, hnone]
    · intro es hes
      rw [hnone] at hes
      cases hes
    · intro es tok hes
      rw [hnone] at hes
      cases hes
  · cases hat : pyGet es "access_token" with
    | none =>
      refine ⟨c, ?_, rfl, fun _ => rfl, fun _ _ _ => rfl, ?_⟩
      · unfold refresh_tokens
        simp only [hk, hes, hat]
      · intro es' tok hes' htok
        rw [hes] at hes'
        injection hes' with hes'
        injection hes' with hes'
        subst hes'
        rw [hat] at htok
        cases htok
    | some tok =>
      have hrt : pyGet es "refresh_token" = none := by
        rcases hmiss with h | h
        · rw [hat] at h
          cases h
        · exact h
      refine ⟨{ c with auth_token := tok }, ?_, rfl, ?_, ?_, ?_⟩
      · unfold refresh_tokens
        simp only [hk, hes, hat, hrt]
      · intro h
        rw [h] at hes
        cases hes
      · intro es' hes' hat'
        rw [hes] at hes'
        injection hes' with hes'
        injection hes' with hes'
        subst hes'
        rw [hat] at hat'
        cases hat'
      · intro es' tok' hes' htok' hrt'
        rw [hes] at hes'
        injection hes' with hes'
        injection hes' with hes'
        subst hes'
        rw [hat] at htok'
        injection htok' with htok'

/-- A clearly non-JSON OAuth response body. -/
def respBadJson : Resp := ⟨.success, "not json", none⟩

theorem refresh_tokens_failure_behavior_witness :
    refresh_tokens demoClient respBadJson
      = .ok (demoClient,
          errObj ("Error on decode oauth response [" ++ respBadJson.text ++ "]")) := by
  obtain ⟨c', heq, _, hnone, _, _⟩ :=
    refresh_tokens_failure_behavior demoClient respBadJson rfl (Or.inl rfl)
  rw [hnone rfl] at heq
  exact heq

/-! ### Claims C6 and C10: `prepare_batch` -/

/-- Running `prepare_batch`'s loop over well-formed entries: it succeeds,
produces one encoded string per processed key (in order), and pops the
first element of every processed per-id list in the `params` state. -/
theorem prepGo_ok (L : List String) :
    ∀ (ps bp : Entries),
      L.Nodup →
      (∀ k, k ∈ L → k ∉ keysOf bp) →
      (∀ k, k ∈ L → ∃ m tail, pyGet ps k = some (.arr (.s m :: tail)) ∧ m ≠ "batch") →
      ∃ bpF psF,
        prepGo L ps bp = (.ok bpF, psF)
        ∧ keysOf bpF = keysOf bp ++ L
        ∧ (∀ k, k ∉ L → pyGet bpF k = pyGet bp k)
        ∧ (∀ k m tail, k ∈ L → pyGet ps k = some (.arr (.s m :: tail)) →
            pyGet bpF k = some (.s (m ++ "?" ++ encElems tail))
            ∧ pyGet psF k = some (.arr tail))
        ∧ keysOf psF = keysOf ps
        ∧ (∀ k, k ∉ L → pyGet psF k = pyGet ps k) := by
  induction L with
  | nil =>
    intro ps bp _ _ _
    refine ⟨bp, ps, rfl, by simp, fun _ _ => rfl, ?_, rfl, fun _ _ => rfl⟩
    intro k m tail hk
    cases hk
  | cons k₀ rest ih =>
    intro ps bp hnd hfresh hgood
    obtain ⟨m, tail, hk₀, hmb⟩ := hgood k₀ (by simp)
    simp only [List.nodup_cons] at hnd
    have hstep : prepGo (k₀ :: rest) ps bp
        = prepGo rest (pySet ps k₀ (.arr tail))
            (pySet bp k₀ (.s (m ++ "?" ++ encElems tail))) := by
      rw [prepGo, hk₀]
      simp only [if_neg hmb]
    have hfresh' : ∀ k, k ∈ rest →
        k ∉ keysOf (pySet bp k₀ (.s (m ++ "?" ++ encElems tail))) := by
      intro k hk hmem
      have hne : k ≠ k₀ := fun hc => hnd.1 (hc ▸ hk)
      have hbk : k ∉ keysOf bp := hfresh k (by simp [hk])
      by_cases hb0 : k₀ ∈ keysOf bp
      · rw [keysOf_pySet_of_mem bp _ hb0] at hmem
        exact hbk hmem
      · rw [keysOf_pySet_of_not_mem bp _ hb0] at hmem
        rcases List.mem_append.1 hmem with h | h
        · exact hbk h
        · exact hne (by simpa using h)
    have hgood' : ∀ k, k ∈ rest → ∃ m' tail',
        pyGet (pySet ps k₀ (.arr tail)) k = some (.arr (.s m' :: tail'))
          ∧ m' ≠ "batch" := by
      intro k hk
      have hne : k ≠ k₀ := fun hc => hnd.1 (hc ▸ hk)
      obtain ⟨m', tail', hv, hb⟩ := hgood k (by simp [hk])
      exact ⟨m', tail', by rw [pyGet_pySet_ne _ _ hne]; exact hv, hb⟩
    obtain ⟨bpF, psF, hrec, hkeys, hout, hvals, hpskeys, hpsout⟩ :=
      ih (pySet ps k₀ (.arr tail)) (pySet bp k₀ (.s (m ++ "?" ++ encElems tail)))
        hnd.2 hfresh' hgood'
    have hk₀bp : k₀ ∉ keysOf bp := hfresh k₀ (by simp)
    refine ⟨bpF, psF, hstep ▸ hrec, ?_, ?_, ?_, ?_, ?_⟩
    · rw [hkeys, keysOf_pySet_of_not_mem bp _ hk₀bp, List.append_assoc]
      rfl
    · intro k hk
      simp only [List.mem_cons, not_or] at hk
      rw [hout k hk.2, pyGet_pySet_ne _ _ hk.1]
    · intro k m' tail' hk hv
      rcases List.mem_cons.1 hk with rfl | hk
      · rw [hk₀] at hv
        injection hv with hv
        injection hv with hv
        injection hv with hv1 hv2
        injection hv1 with hv1
        subst hv1
        subst hv2
        constructor
        · rw [hout _ hnd.1, pyGet_pySet_self]
        · rw [hpsout _ hnd.1, pyGet_pySet_self]
      · have hne : k ≠ k₀ := fun hc => hnd.1 (hc ▸ hk)
        exact hvals k m' tail' hk (by rw [pyGet_pySet_ne _ _ hne]; exact hv)
    · rw [hpskeys, keysOf_pySet_of_mem ps _ (mem_of_pyGet_some hk₀)]
    · intro k hk
      simp only [List.mem_cons, not_or] at hk
      rw [hpsout k hk.2, pyGet_pySet_ne _ _ hk.1]

/-- If any request id in the iteration list holds a malformed description
(not a list, or a nested `batch`), `prepare_batch`'s loop raises. -/
theorem prepGo_error (L : List String) :
    ∀ (ps bp : Entries) (k : String) (v : JValue),
      k ∈ L →
      pyGet ps k = some v →
      (v.isArr = false ∨ ∃ tail, v = .arr (.s "batch" :: tail)) →
      ∃ e, (prepGo L ps bp).1 = .error e := by
  induction L with
  | nil =>
    intro ps bp k v hk _ _
    cases hk
  | cons k₀ rest ih =>
    intro ps bp k v hk hv hbad
    by_cases hkk : k₀ = k
    · subst hkk
      rcases hbad with hna | ⟨tail, rfl⟩
      · cases v with
        | arr l => simp [JValue.isArr] at hna
        | null => rw [prepGo, hv]; exact ⟨_, rfl⟩
        | b bv => rw [prepGo, hv]; exact ⟨_, rfl⟩
        | n nv => rw [prepGo, hv]; exact ⟨_, rfl⟩
        | s sv => rw [prepGo, hv]; exact ⟨_, rfl⟩
        | obj es => rw [prepGo, hv]; exact ⟨_, rfl⟩
      · rw [prepGo, hv]
        exact ⟨_, rfl⟩
    · have hne : k ≠ k₀ := fun hc => hkk hc.symm
      have hkr : k ∈ rest := by
        rcases List.mem_cons.1 hk with h | h
        · exact absurd h.symm hkk
        · exact h
      rcases hg : pyGet ps k₀ with _ | v₀
      · rw [prepGo, hg]
        exact ⟨_, rfl⟩
      · cases v₀ with
        | arr l =>
          cases l with
          | nil =>
            rw [prepGo, hg]
            exact ⟨_, rfl⟩
          | cons m tl =>
            cases m with
            | s ms =>
              by_cases hmb : ms = "batch"
              · subst hmb
                rw [prepGo, hg]
                exact ⟨_, rfl⟩
              · have hstep : prepGo (k₀ :: rest) ps bp
                    = prepGo rest (pySet ps k₀ (.arr tl))
                        (pySet bp k₀ (.s (ms ++ "?" ++ encElems tl))) := by
                  rw [prepGo, hg]
                  simp only [if_neg hmb]
                rw [hstep]
                exact ih _ _ k v hkr
                  (by rw [pyGet_pySet_ne _ _ hne]; exact hv) hbad
            | null => rw [prepGo, hg]; exact ⟨_, rfl⟩
            | b bv => rw [prepGo, hg]; exact ⟨_, rfl⟩
            | n nv => rw [prepGo, hg]; exact ⟨_, rfl⟩
            | arr l2 => rw [prepGo, hg]; exact ⟨_, rfl⟩
            | obj es2 => rw [prepGo, hg]; exact ⟨_, rfl⟩
        | null => rw [prepGo, hg]; exact ⟨_, rfl⟩
        | b bv => rw [prepGo, hg]; exact ⟨_, rfl⟩
        | n nv => rw [prepGo, hg]; exact ⟨_, rfl⟩
        | s sv => rw [prepGo, hg]; exact ⟨_, rfl⟩
        | obj es => rw [prepGo, hg]; exact ⟨_, rfl⟩

/-- C6: for every command map whose values are lists with a string method
head other than `batch`, `prepare_batch` returns a mapping with exactly the
original keys (in sorted order) and values `"<method>?<encoded remainder>"`;
it raises a fault (InvalidArgument in the spec's taxonomy) when the
argument is not a mapping, when some value is not a list, and when some
value's first element is `"batch"`. -/
theorem prepare_batch_spec :
    (∀ ps : Entries, (keysOf ps).Nodup →
      (∀ k v, pyGet ps k = some v →
        ∃ m tail, v = .arr (.s m :: tail) ∧ m ≠ "batch") →
      ∃ bp psF, prepare_batch (.obj ps) = (.ok bp, .obj psF)
        ∧ keysOf bp = sortKeys (keysOf ps)
        ∧ (∀ k m tail, pyGet ps k = some (.arr (.s m :: tail)) →
            pyGet bp k = some (.s (m ++ "?" ++ encElems tail))))
    ∧ (∀ v : JValue, v.isObj = false →
        (prepare_batch v).1 = .error "Invalid 'cmd' structure")
    ∧ (∀ (ps : Entries) (k : String) (v : JValue), pyGet ps k = some v →
        v.isArr = false → ∃ e, (prepare_batch (.obj ps)).1 = .error e)
    ∧ (∀ (ps : Entries) (k : String) (tail : List JValue),
        pyGet ps k = some (.arr (.s "batch" :: tail)) →
        ∃ e, (prepare_batch (.obj ps)).1 = .error e) := by
  refine ⟨?_, ?_, ?_, ?_⟩
  · intro ps hnd hvals
    obtain ⟨bpF, psF, hrec, hkeys, _, hvals', _, _⟩ :=
      prepGo_ok (sortKeys (keysOf ps)) ps []
        (sortKeys_nodup hnd)
        (fun k _ hc => (List.not_mem_nil k) hc)
        (by
          intro k hk
          obtain ⟨v, hv⟩ := pyGet_isSome_of_mem (mem_sortKeys.1 hk)
          obtain ⟨m, tail, hsh, hmb⟩ := hvals k v hv
          exact ⟨m, tail, by rw [hv, hsh], hmb⟩)
    refine ⟨bpF, psF, ?_, ?_, ?_⟩
    · show ((prepGo (sortKeys (keysOf ps)) ps []).1,
        JValue.obj (prepGo (sortKeys (keysOf ps)) ps []).2) = _
      rw [hrec]
    · simpa using hkeys
    · intro k m tail hv
      exact (hvals' k m tail (mem_sortKeys.2 (mem_of_pyGet_some hv)) hv).1
  · intro v hv
    cases v with
    | obj es => simp [JValue.isObj] at hv
    | null => rfl
    | b bv => rfl
    | n nv => rfl
    | s sv => rfl
    | arr l => rfl
  · intro ps k v hv hna
    exact prepGo_error (sortKeys (keysOf ps)) ps [] k v
      (mem_sortKeys.2 (mem_of_pyGet_some hv)) hv (Or.inl hna)
  · intro ps k tail hv
    exact prepGo_error (sortKeys (keysOf ps)) ps [] k _
      (mem_sortKeys.2 (mem_of_pyGet_some hv)) hv (Or.inr ⟨tail, rfl⟩)

/-- C10: `prepare_batch` mutates its argument in place: after a successful
run, every per-request-id list in the caller's map has lost its first
element (the method name removed by `pop(0)`), while the key set is
untouched. -/
theorem prepare_batch_pops_caller_lists (ps : Entries)
    (hnd : (keysOf ps).Nodup)
    (hvals : ∀ k v, pyGet ps k = some v →
      ∃ m tail, v = .arr (.s m :: tail) ∧ m ≠ "batch") :
    ∃ bp psF, prepare_batch (.obj ps) = (.ok bp, .obj psF)
      ∧ keysOf psF = keysOf ps
      ∧ (∀ k m tail, pyGet ps k = some (.arr (.s m :: tail)) →
          pyGet psF k = some (.arr tail)) := by
  obtain ⟨bpF, psF, hrec, _, _, hvals', hpskeys, _⟩ :=
    prepGo_ok (sortKeys (keysOf ps)) ps []
      (sortKeys_nodup hnd)
      (fun k _ hc => (List.not_mem_nil k) hc)
      (by
        intro k hk
        obtain ⟨v, hv⟩ := pyGet_isSome_of_mem (mem_sortKeys.1 hk)
        obtain ⟨m, tail, hsh, hmb⟩ := hvals k v hv
        exact ⟨m, tail, by rw [hv, hsh], hmb⟩)
  refine ⟨bpF, psF, ?_, hpskeys, ?_⟩
  · show ((prepGo (sortKeys (keysOf ps)) ps []).1,
      JValue.obj (prepGo (sortKeys (keysOf ps)) ps []).2) = _
    rw [hrec]
  · intro k m tail hv
    exact (hvals' k m tail (mem_sortKeys.2 (mem_of_pyGet_some hv)) hv).2

/-- A small two-command batch map, inserted in unsorted key order. -/
def ps6 : Entries :=
  [("b", .arr [.s "lead.list"]),
   ("a", .arr [.s "user.get", .obj [("id", .n 1)]])]

/-- `prepare_batch ps6`'s result: sorted keys, encoded values. -/
def bp6 : Entries := [("a", .s "user.get?id=1&"), ("b", .s "lead.list?")]

/-- `ps6` after `prepare_batch` popped each method name. -/
def psF6 : Entries := [("b", .arr []), ("a", .arr [.obj [("id", .n 1)]])]

theorem ps6_wellformed : ∀ k v, pyGet ps6 k = some v →
    ∃ m tail, v = .arr (.s m :: tail) ∧ m ≠ "batch" := by
  intro k v hv
  simp only [ps6, pyGet] at hv
  split at hv
  · cases hv
    exact ⟨"lead.list", [], rfl, by decide⟩
  · split at hv
    · cases hv
      exact ⟨"user.get", [.obj [("id", .n 1)]], rfl, by decide⟩
    · cases hv

theorem prepare_batch_spec_witness :
    prepare_batch (.obj ps6) = (.ok bp6, .obj psF6)
    ∧ keysOf bp6 = sortKeys (keysOf ps6)
    ∧ (prepare_batch (.n 5)).1 = .error "Invalid 'cmd' structure" := by
  refine ⟨by rfl, ?_, prepare_batch_spec.2.1 (.n 5) (by rfl)⟩
  obtain ⟨bp, psF, heq, hkeys, _⟩ :=
    prepare_batch_spec.1 ps6 (by decide) ps6_wellformed
  have heval : prepare_batch (.obj ps6) = (.ok bp6, .obj psF6) := by rfl
  rw [heval] at heq
  injection heq with h1 h2
  injection h1 with h1
  rw [← h1] at hkeys
  exact hkeys

theorem prepare_batch_pops_caller_lists_witness :
    prepare_batch (.obj ps6) = (.ok bp6, .obj psF6)
    ∧ pyGet psF6 "a" = some (.arr [.obj [("id", .n 1)]])
    ∧ pyGet psF6 "b" = some (.arr []) := by
  obtain ⟨bp, psF, heq, hpk, hpv⟩ :=
    prepare_batch_pops_caller_lists ps6 (by decide) ps6_wellformed
  have heval : prepare_batch (.obj ps6) = (.ok bp6, .obj psF6) := by rfl
  rw [heval] at heq
  injection heq with h1 h2
  injection h2 with h2
  refine ⟨heval, ?_, ?_⟩
  · rw [h2]
    exact hpv "a" "user.get" [.obj [("id", .n 1)]] (by rfl)
  · rw [h2]
    exact hpv "b" "lead.list" [] (by rfl)

/-! ### Claim C9: sorted-key determinism of `encode_cmd` -/

/-- C9: two command maps holding the same key-value pairs, in whatever
insertion order, encode to byte-identical strings: `encode_cmd` iterates
the request ids in sorted order and reads values by key. -/
theorem encode_cmd_deterministic (d1 d2 : Entries)
    (h1 : (keysOf d1).Nodup) (h2 : (keysOf d2).Nodup)
    (hext : ∀ k, pyGet d1 k = pyGet d2 k) :
    encode_cmd d1 = encode_cmd d2 := by
  have hmem : ∀ k, k ∈ keysOf d1 ↔ k ∈ keysOf d2 := by
    intro k
    constructor
    · intro hk
      obtain ⟨v, hv⟩ := pyGet_isSome_of_mem hk
      exact mem_of_pyGet_some (v := v) (by rw [← hext k]; exact hv)
    · intro hk
      obtain ⟨v, hv⟩ := pyGet_isSome_of_mem hk
      exact mem_of_pyGet_some (v := v) (by rw [hext k]; exact hv)
  have hsort : sortKeys (keysOf d1) = sortKeys (keysOf d2) :=
    sortKeys_eq_of_same_mem h1 h2 hmem
  unfold encode_cmd
  rw [hsort]
  have hfold : ∀ (L : List String) (acc : String),
      L.foldl (fun acc i =>
        acc ++ urlencode (.obj [("cmd", .obj [(i, (pyGet d1 i).getD .null)])]) ++ "&") acc
      = L.foldl (fun acc i =>
        acc ++ urlencode (.obj [("cmd", .obj [(i, (pyGet d2 i).getD .null)])]) ++ "&") acc := by
    intro L
    induction L with
    | nil => intro acc; rfl
    | cons x xs ihL =>
      intro acc
      simp only [List.foldl_cons]
      rw [hext x]
      exact ihL _
  exact hfold _ ""

theorem encode_cmd_deterministic_witness :
    encode_cmd [("b", .n 1), ("a", .s "x")] = encode_cmd [("a", .s "x"), ("b", .n 1)] :=
  encode_cmd_deterministic _ _ (by decide) (by decide) (by
    intro k
    by_cases hb : "b" = k
    · by_cases ha : "a" = k
      · exact absurd (ha.trans hb.symm) (by decide)
      · simp [pyGet, hb, ha]
    · by_cases ha : "a" = k
      · simp [pyGet, hb, ha]
      · simp [pyGet, hb, ha])

/-! ### Claims C1 and C2: what `batch` merges, and with which precedence -/

/-- Looking a request id up in one sub-map of `temp['result']`. -/
def tresLookup (tres : Entries) (s id : String) : Option JValue :=
  match pyGet tres s with
  | some (.obj ves) => pyGet ves id
  | _ => none

/-- Python dicts decoded from JSON have no duplicate keys; this shape
condition transports that to a modelled chunk response. -/
def ChunkNodup (t : JValue) : Prop :=
  match t with
  | .obj tes =>
    match pyGet tes "result" with
    | some (.obj tres) => (keysOf tres).Nodup ∧
        ∀ i ves, pyGet tres i = some (.obj ves) → (keysOf ves).Nodup
    | _ => True
  | _ => True

theorem orElse_none (x : Option JValue) : (x.orElse fun _ => none) = x := by
  cases x <;> rfl

theorem mergeStep_pyGet_ne {tres acc acc₁ : Entries} {i s : String}
    (h : mergeStep tres acc i = .ok acc₁) (hne : s ≠ i) :
    pyGet acc₁ s = pyGet acc s := by
  revert h
  unfold mergeStep
  rcases hv : pyGet tres i with _ | v
  · intro h
    cases h
  · cases v with
    | obj ve =>
      dsimp only [Option.getD, jLen]
      by_cases hl : ve.length > 0
      · rw [if_pos hl]
        rcases hacc : pyGet acc i with _ | av
        · intro h
          cases h
        · cases av with
          | obj ave =>
            intro h
            cases h
            exact pyGet_pySet_ne acc _ hne
          | null => intro h; cases h
          | b bv => intro h; cases h
          | n nv => intro h; cases h
          | s sv => intro h; cases h
          | arr l => intro h; cases h
      · rw [if_neg hl]
        intro h
        cases h
        rfl
    | arr l =>
      dsimp only [Option.getD, jLen]
      by_cases hl : l.length > 0
      · rw [if_pos hl]
        rcases hacc : pyGet acc i with _ | av
        · intro h
          cases h
        · intro h
          cases h
      · rw [if_neg hl]
        intro h
        cases h
        rfl
    | s sv =>
      dsimp only [Option.getD, jLen]
      by_cases hl : sv.length > 0
      · rw [if_pos hl]
        rcases hacc : pyGet acc i with _ | av
        · intro h
          cases h
        · intro h
          cases h
      · rw [if_neg hl]
        intro h
        cases h
        rfl
    | null => intro h; cases h
    | b bv => intro h; cases h
    | n nv => intro h; cases h

/-- A fold of `mergeStep` over keys not containing `s` leaves the
accumulator's entry at `s` untouched. -/
theorem mergeFold_not_mem (tres : Entries) (s : String) :
    ∀ (L : List String) (acc acc₁ : Entries),
      List.foldlM (mergeStep tres) acc L = .ok acc₁ →
      s ∉ L →
      pyGet acc₁ s = pyGet acc s := by
  intro L
  induction L with
  | nil =>
    intro acc acc₁ h _
    cases h
    rfl
  | cons i rest ih =>
    intro acc acc₁ h hs
    simp only [List.mem_cons, not_or] at hs
    rw [List.foldlM_cons] at h
    rcases hstep : mergeStep tres acc i with e | acc₀
    · rw [hstep] at h
      cases h
    · rw [hstep] at h
      rw [ih acc₀ acc₁ h hs.2, mergeStep_pyGet_ne hstep hs.1]

/-- The merge step at the key `s` itself: the accumulator's sub-map at `s`
receives the chunk's sub-map, with first-match precedence for the values
already stored (`merge_two_dicts(temp_sub, acc_sub)` lets `acc_sub` win). -/
theorem mergeStep_self {tres acc acc₀ : Entries} {s : String} {A : Entries}
    (h : mergeStep tres acc s = .ok acc₀)
    (hA : pyGet acc s = some (.obj A)) (hAnd : (keysOf A).Nodup)
    (hvnd : ∀ ves, pyGet tres s = some (.obj ves) → (keysOf ves).Nodup) :
    ∃ A', pyGet acc₀ s = some (.obj A') ∧ (keysOf A').Nodup
      ∧ ∀ id, pyGet A' id = (pyGet A id).orElse (fun _ => tresLookup tres s id) := by
  revert h
  unfold mergeStep tresLookup
  rcases hv : pyGet tres s with _ | v
  · intro h
    cases h
  · cases v with
    | obj ve =>
      dsimp only [Option.getD, jLen]
      by_cases hl : ve.length > 0
      · rw [if_pos hl, hA]
        intro h
        cases h
        refine ⟨merge_two_dicts ve A, pyGet_pySet_self _ _ _,
          nodup_keys_pyUpdate ve A (hvnd ve hv), ?_⟩
        intro id
        exact pyGet_pyUpdate ve A hAnd id
      · rw [if_neg hl]
        intro h
        cases h
        have hve : ve = [] := List.length_eq_zero.1 (by omega)
        subst hve
        refine ⟨A, hA, hAnd, ?_⟩
        intro id
        exact (orElse_none _).symm
    | arr l =>
      dsimp only [Option.getD, jLen]
      by_cases hl : l.length > 0
      · rw [if_pos hl, hA]
        intro h
        cases h
      · rw [if_neg hl]
        intro h
        cases h
        exact ⟨A, hA, hAnd, fun id => (orElse_none _).symm⟩
    | s sv =>
      dsimp only [Option.getD, jLen]
      by_cases hl : sv.length > 0
      · rw [if_pos hl, hA]
        intro h
        cases h
      · rw [if_neg hl]
        intro h
        cases h
        exact ⟨A, hA, hAnd, fun id => (orElse_none _).symm⟩
    | null => intro h; cases h
    | b bv => intro h; cases h
    | n nv => intro h; cases h

/-- Folding the merge loop over keys containing `s` once: the sub-map at
`s` picks up the chunk's values, keeping already-stored values on
conflict. -/
theorem mergeFold_mem (tres : Entries) (s : String) :
    ∀ (L : List String) (acc acc' : Entries),
      List.foldlM (mergeStep tres) acc L = .ok acc' →
      L.Nodup →
      s ∈ L →
      ∀ A, pyGet acc s = some (.obj A) → (keysOf A).Nodup →
      (∀ ves, pyGet tres s = some (.obj ves) → (keysOf ves).Nodup) →
      ∃ A', pyGet acc' s = some (.obj A') ∧ (keysOf A').Nodup
        ∧ ∀ id, pyGet A' id = (pyGet A id).orElse (fun _ => tresLookup tres s id) := by
  intro L
  induction L with
  | nil =>
    intro acc acc' _ _ hs
    cases hs
  | cons i rest ih =>
    intro acc acc' hfold hnd hs A hA hAnd hvnd
    simp only [List.nodup_cons] at hnd
    rw [List.foldlM_cons] at hfold
    rcases hstep : mergeStep tres acc i with e | acc₀
    · rw [hstep] at hfold
      cases hfold
    rw [hstep] at hfold
    by_cases his : s = i
    · subst his
      have hrest : pyGet acc' s = pyGet acc₀ s :=
        mergeFold_not_mem tres s rest acc₀ acc' hfold hnd.1
      obtain ⟨A', h1, h2, h3⟩ := mergeStep_self hstep hA hAnd hvnd
      exact ⟨A', by rw [hrest]; exact h1, h2, h3⟩
    · have hsr : s ∈ rest := by
        rcases List.mem_cons.1 hs with h | h
        · exact absurd h his
        · exact h
      exact ih acc₀ acc' hfold hnd.2 hsr A
        (by rw [mergeStep_pyGet_ne hstep his]; exact hA) hAnd hvnd

/-- Folding one well-shaped chunk response into the accumulator: the entry
at sub-map `s` becomes the shallow merge in which already-stored values are
kept on key conflict, and the chunk contributes exactly its
`result[s]` entries. -/
theorem mergeChunk_lookup {acc : Entries} {t : JValue} {acc' : Entries} (s : String)
    (hok : mergeChunk acc t = .ok acc')
    (hnd : ChunkNodup t)
    {A : Entries} (hA : pyGet acc s = some (.obj A)) (hAnd : (keysOf A).Nodup) :
    ∃ A', pyGet acc' s = some (.obj A') ∧ (keysOf A').Nodup
      ∧ ∀ id, pyGet A' id = (pyGet A id).orElse (fun _ => resultSub t s id) := by
  revert hok hnd
  unfold mergeChunk ChunkNodup resultSub
  cases t with
  | obj tes =>
    dsimp only
    rcases hres : pyGet tes "result" with _ | r
    · intro hok _
      cases hok
    · cases r with
      | obj tres =>
        intro hok hnd
        dsimp only at hok hnd ⊢
        by_cases hs : s ∈ keysOf tres
        · exact mergeFold_mem tres s (keysOf tres) acc acc' hok hnd.1 hs A hA hAnd
            (fun ves hv => hnd.2 s ves hv)
        · have hnone : pyGet tres s = none := (pyGet_eq_none_iff tres s).2 hs
          have hsame : pyGet acc' s = pyGet acc s :=
            mergeFold_not_mem tres s (keysOf tres) acc acc' hok hs
          refine ⟨A, by rw [hsame]; exact hA, hAnd, ?_⟩
          intro id
          have hred : (match pyGet tres s with
              | some (.obj sub) => pyGet sub id
              | _ => none) = (none : Option JValue) := by
            rw [hnone]
          rw [hred]
          exact (orElse_none _).symm
      | arr l =>
        cases l with
        | nil =>
          intro hok _
          cases hok
          exact ⟨A, hA, hAnd, fun id => (orElse_none _).symm⟩
        | cons x xs =>
          intro hok _
          cases hok
      | s sv =>
        intro hok _
        dsimp only at hok
        by_cases hsv : sv = ""
        · rw [if_pos hsv] at hok
          cases hok
          exact ⟨A, hA, hAnd, fun id => (orElse_none _).symm⟩
        · rw [if_neg hsv] at hok
          cases hok
      | null => intro hok _; cases hok
      | b bv => intro hok _; cases hok
      | n nv => intro hok _; cases hok
  | null => intro hok _; cases hok
  | b bv => intro hok _; cases hok
  | n nv => intro hok _; cases hok
  | s sv => intro hok _; cases hok
  | arr l => intro hok _; cases hok

/-- The accumulator characterization through `batch`'s whole loop: after a
successful run, the sub-map at `s` maps each id to the value from the
EARLIEST processed chunk response carrying that id. -/
theorem batchGo_resultSub (oracle : Nat → JValue) (cmd : Entries) (total : Nat)
    (s : String) :
    ∀ (keys : List String) (count : Nat) (cur : Entries) (idx : Nat) (acc : Entries)
      (calls : List Entries) (fin : Entries),
      batchGo oracle cmd total keys count cur idx acc = .ok (calls, fin) →
      (∀ j, j < calls.length → ChunkNodup (oracle (idx + j))) →
      ∀ A, pyGet acc s = some (.obj A) → (keysOf A).Nodup →
      ∃ A', pyGet fin s = some (.obj A') ∧ (keysOf A').Nodup
        ∧ ∀ id, pyGet A' id = (List.range calls.length).foldl
            (fun o j => o.orElse (fun _ => resultSub (oracle (idx + j)) s id))
            (pyGet A id) := by
  intro keys
  induction keys with
  | nil =>
    intro count cur idx acc calls fin hrun _ A hA hAnd
    rw [batchGo] at hrun
    cases hrun
    exact ⟨A, hA, hAnd, fun id => rfl⟩
  | cons k rest ih =>
    intro count cur idx acc calls fin hrun hnd A hA hAnd
    rw [batchGo] at hrun
    split at hrun
    · split at hrun
      · cases hrun
      · rename_i acc₁ hmc
        split at hrun
        · cases hrun
        · rename_i calls2 fin2 hrec
          injection hrun with hpr
          rw [Prod.mk.injEq] at hpr
          obtain ⟨hc, hf⟩ := hpr
          subst hc
          subst hf
          obtain ⟨A₁, h1, h2, h3⟩ := mergeChunk_lookup s hmc
            (by
              have := hnd 0 (by simp)
              simpa using this)
            hA hAnd
          obtain ⟨A', g1, g2, g3⟩ := ih (count + 1) [] (idx + 1) acc₁ calls2 fin2 hrec
            (by
              intro j hj
              have := hnd (j + 1) (by simp only [List.length_cons]; omega)
              rw [show idx + 1 + j = idx + (j + 1) from by omega]
              exact this)
            A₁ h1 h2
          refine ⟨A', g1, g2, ?_⟩
          intro id
          rw [g3 id]
          conv_rhs => rw [List.length_cons, List.range_succ_eq_map,
            List.foldl_cons, List.foldl_map]
          have hbase : ((pyGet A id).orElse fun _ => resultSub (oracle (idx + 0)) s id)
              = pyGet A₁ id := by
            show ((pyGet A id).orElse fun _ => resultSub (oracle idx) s id) = pyGet A₁ id
            exact (h3 id).symm
          rw [hbase]
          apply List.foldl_ext
          intro o j hj
          rw [show idx + 1 + j = idx + Nat.succ j from by omega]
    · exact ih (count + 1) (pySet cur k ((pyGet cmd k).getD .null)) idx acc calls fin
        hrun hnd A hA hAnd

/-- What `batch` returns at `result[s][id]` for any initialized sub-map
key `s`: the value from the earliest chunk response carrying that id. -/
theorem pyBatch_resultSub (oracle : Nat → JValue) (params cmd : Entries)
    (calls : List Entries) (res : JValue) (s : String)
    (hhalt : hasKey params "halt" = true)
    (hcmd : pyGet params "cmd" = some (.obj cmd))
    (hrun : pyBatch oracle params = .ok (calls, res))
    (hnd : ∀ j, j < calls.length → ChunkNodup (oracle j))
    (hs : pyGet initAcc s = some (.obj [])) :
    ∀ id, resultSub res s id = firstChunkValue oracle calls.length s id := by
  have hck : hasKey params "cmd" = true := hasKey_of_pyGet hcmd
  unfold pyBatch at hrun
  rw [hhalt, hck, hcmd] at hrun
  simp only [Bool.not_true, Bool.or_self, Bool.false_eq_true, if_false] at hrun
  split at hrun
  · cases hrun
  · rename_i calls' fin' heq
    injection hrun with hpr
    rw [Prod.mk.injEq] at hpr
    obtain ⟨hc, hr⟩ := hpr
    subst hc
    subst hr
    obtain ⟨A', g1, g2, g3⟩ := batchGo_resultSub oracle cmd cmd.length s
      (sortKeys (keysOf cmd)) 0 [] 0 initAcc calls' fin' heq
      (by
        intro j hj
        have := hnd j hj
        rwa [Nat.zero_add])
      [] hs (by simp [keysOf])
    intro id
    rw [show resultSub (JValue.obj [("result", JValue.obj fin')]) s id
      = (match pyGet fin' s with
         | some (.obj sub) => pyGet sub id
         | _ => none) from rfl, g1]
    show pyGet A' id = firstChunkValue oracle calls'.length s id
    rw [g3 id]
    unfold firstChunkValue
    rw [show pyGet ([] : Entries) id = none from rfl]
    apply List.foldl_ext
    intro o j hj
    rw [Nat.zero_add]

/-- A well-shaped single-entry chunk response has no duplicate dict keys. -/
theorem chunkNodup_single (s₀ id₀ : String) (v : JValue) :
    ChunkNodup (.obj [("result", .obj [(s₀, .obj [(id₀, v)])])]) := by
  show (keysOf [(s₀, JValue.obj [(id₀, v)])]).Nodup ∧
    ∀ i ves, pyGet [(s₀, JValue.obj [(id₀, v)])] i = some (.obj ves) →
      (keysOf ves).Nodup
  refine ⟨by simp [keysOf], ?_⟩
  intro i ves h
  simp only [pyGet] at h
  split at h
  · injection h with h
    injection h with h
    rw [← h]
    simp [keysOf]
  · cases h

/-- C1 amended: every request id a chunk's `result.result` carries is
merged into the accumulator, but with precedence for the value already
stored: `merge_two_dicts(temp_sub, acc_sub)` lets the accumulator win, so
on an id conflict the EARLIEST chunk's value is kept and a later chunk
never overwrites it. -/
theorem batch_merge_earlier_chunk_precedence (oracle : Nat → JValue)
    (params cmd : Entries) (calls : List Entries) (res : JValue)
    (hhalt : hasKey params "halt" = true)
    (hcmd : pyGet params "cmd" = some (.obj cmd))
    (hrun : pyBatch oracle params = .ok (calls, res))
    (hnd : ∀ j, j < calls.length → ChunkNodup (oracle j)) :
    ∀ id, resultSub res "result" id
      = firstChunkValue oracle calls.length "result" id :=
  pyBatch_resultSub oracle params cmd calls res "result" hhalt hcmd hrun hnd rfl

/-- C2 amended: the per-chunk `result_error`, `result_total` and
`result_next` sub-maps ARE propagated into the accumulator, exactly like
`result.result` (non-empty sub-maps are shallow-merged with accumulator
precedence); the returned sub-maps are empty only when every chunk's
corresponding sub-map is absent or empty. -/
theorem batch_error_total_next_propagated (oracle : Nat → JValue)
    (params cmd : Entries) (calls : List Entries) (res : JValue)
    (hhalt : hasKey params "halt" = true)
    (hcmd : pyGet params "cmd" = some (.obj cmd))
    (hrun : pyBatch oracle params = .ok (calls, res))
    (hnd : ∀ j, j < calls.length → ChunkNodup (oracle j)) :
    ∀ s, s ∈ ["result_error", "result_total", "result_next"] →
    ∀ id, resultSub res s id = firstChunkValue oracle calls.length s id := by
  intro s hs
  simp only [List.mem_cons, List.not_mem_nil, or_false] at hs
  rcases hs with rfl | rfl | rfl
  · exact pyBatch_resultSub oracle params cmd calls res _ hhalt hcmd hrun hnd rfl
  · exact pyBatch_resultSub oracle params cmd calls res _ hhalt hcmd hrun hnd rfl
  · exact pyBatch_resultSub oracle params cmd calls res _ hhalt hcmd hrun hnd rfl

/-! Concrete two-chunk run exhibiting the merge precedence. -/

def cmd50 : Entries := (List.range 50).map (fun i => (toString (10 + i), JValue.null))

def params50 : Entries := [("halt", .n 0), ("cmd", .obj cmd50)]

/-- A chunk response whose `result.result` holds request id `"x"`. -/
def chunkResp (v : JValue) : JValue :=
  .obj [("result", .obj [("result", .obj [("x", v)])])]

/-- Both chunks answer for the SAME id `"x"`, with different values. -/
def oracle50 : Nat → JValue := fun n =>
  if n = 0 then chunkResp (.obj [("v", .n 1)]) else chunkResp (.obj [("v", .n 2)])

def calls50 : List Entries := [cmd50.take 49, cmd50.drop 49]

def res50 : JValue := .obj [("result", .obj
  [("result_error", .obj []), ("result_total", .obj []),
   ("result", .obj [("x", .obj [("v", .n 1)])]), ("result_next", .obj [])])]

set_option maxRecDepth 40000 in
/-- C1 counterexample: with two chunks answering for the same request id,
the claim says the LATER chunk's value overwrites the accumulator; the code
keeps the EARLIER chunk's value (`merge_two_dicts(new, old)` gives `old`,
the right-hand operand, precedence). -/
theorem batch_later_chunk_overwrite_counterexample :
    pyBatch oracle50 params50 = .ok (calls50, res50)
    ∧ resultSub res50 "result" "x" = some (.obj [("v", .n 1)])
    ∧ resultSub (oracle50 1) "result" "x" = some (.obj [("v", .n 2)])
    ∧ some (JValue.obj [("v", .n 1)]) ≠ some (JValue.obj [("v", .n 2)]) := by
  refine ⟨by rfl, by rfl, by rfl, ?_⟩
  simp

set_option maxRecDepth 40000 in
theorem batch_merge_earlier_chunk_precedence_witness :
    resultSub res50 "result" "x" = firstChunkValue oracle50 2 "result" "x" := by
  have h := batch_merge_earlier_chunk_precedence oracle50 params50 cmd50 calls50 res50
    (by rfl) (by rfl) (by rfl)
    (by
      intro j hj
      cases j with
      | zero => exact chunkNodup_single "result" "x" _
      | succ j' =>
        cases j' with
        | zero => exact chunkNodup_single "result" "x" _
        | succ j'' =>
          rw [show calls50.length = 2 from rfl] at hj
          omega)
    "x"
  exact h

/-! Concrete single-chunk run exhibiting `result_error` propagation. -/

def cmdC2 : Entries := [("q", .null)]

def paramsC2 : Entries := [("halt", .n 0), ("cmd", .obj cmdC2)]

def oracleC2 : Nat → JValue := fun _ =>
  .obj [("result", .obj [("result_error", .obj [("a", .s "boom")])])]

def resC2 : JValue := .obj [("result", .obj
  [("result_error", .obj [("a", .s "boom")]), ("result_total", .obj []),
   ("result", .obj []), ("result_next", .obj [])])]

/-- C2 counterexample: the claim says `batch`'s returned `result_error`
sub-map is always empty and per-chunk `result_error` values are never
propagated; the code merges every non-empty sub-map of `temp['result']`,
so a chunk's `result_error` lands in the accumulator. -/
theorem batch_result_error_empty_counterexample :
    pyBatch oracleC2 paramsC2 = .ok ([[("q", JValue.null)]], resC2)
    ∧ subMapOf resC2 "result_error" = some (.obj [("a", .s "boom")])
    ∧ some (JValue.obj [("a", .s "boom")]) ≠ some (JValue.obj []) := by
  refine ⟨by rfl, by rfl, ?_⟩
  simp

theorem batch_error_total_next_propagated_witness :
    resultSub resC2 "result_error" "a"
      = firstChunkValue oracleC2 1 "result_error" "a" := by
  have h := batch_error_total_next_propagated oracleC2 paramsC2 cmdC2
    [[("q", JValue.null)]] resC2 (by rfl) (by rfl) (by rfl)
    (fun j _ => chunkNodup_single "result_error" "a" (.s "boom"))
    "result_error" (by simp) "a"
  exact h
